import Mathlib

/-!
Verification of the payment tracker's recurrence and ledger engine.

The development shallowly embeds the core of the repository:
`src/models/transaction.py` (the `Transaction` entity and its validation),
`src/services/recurrence_service.py` (recurring-date generation and
instance reconciliation) and `src/services/transaction_service.py`
(running and weekly balances).

Modelling conventions:
* Python `datetime.date` values are triples `(year, month, day)`.
  CPython implements date ordering, subtraction and `timedelta` addition
  through `toordinal`/`fromordinal`; `Date.toDays`/`Date.fromDays` below
  are those functions (rata die, `toDays ⟨1,1,1⟩ = 1`), and date
  comparison is ordinal comparison.  Loops over dates are written with an
  explicit fuel parameter chosen at each call site large enough for every
  run on valid dates (each iteration advances the ordinal by at least
  one, and fuel is one more than the final ordinal), keeping every
  definition structurally recursive and kernel-computable.
* Python `float` amounts are modelled as exact rationals `Rat`.
* The recurrence-pattern value is carried as a `String`: the source's
  `RecurrencePattern` is a `str`-enum and `_generate_dates` compares the
  incoming value against the three members with `==`, so an arbitrary
  string is exactly what the comparison semantics sees.
* `created_at` (a wall-clock timestamp defaulted with `datetime.now()`)
  is omitted: no modelled operation reads it.
* The SQLite store is a list of rows plus an id counter; SQL `SELECT`
  filters become list filters.  `ORDER BY` clauses are noted where they
  are dropped: every modelled consumer either uses the result as a set
  of dates or sums over it, both order-independent in exact arithmetic.
-/

namespace PaymentTracker

/-- Gregorian leap-year test, as in Python's `calendar.isleap`. -/
def isLeap (y : Nat) : Bool := (y % 4 == 0 && y % 100 != 0) || y % 400 == 0

/-- Number of days in month `m` of year `y` (Python `calendar.monthrange`). -/
def daysInMonth (y m : Nat) : Nat :=
  if m = 2 then (if isLeap y then 29 else 28)
  else if m = 4 ∨ m = 6 ∨ m = 9 ∨ m = 11 then 30
  else 31

/-- Days in the months of year `y` strictly before month `m`. -/
def daysBeforeMonth (y : Nat) : Nat → Nat
  | 0 => 0
  | 1 => 0
  | m + 2 => daysBeforeMonth y (m + 1) + daysInMonth y (m + 1)

def daysInYear (y : Nat) : Nat := if isLeap y then 366 else 365

/-- Days strictly before January 1 of year `y` (proleptic Gregorian,
years count from 1 as in Python `date.toordinal`). -/
def daysBeforeYear (y : Nat) : Nat :=
  365 * (y - 1) + ((y - 1) / 4 + (y - 1) / 400 - (y - 1) / 100)

/-- A Python `datetime.date` value. -/
structure Date where
  year : Nat
  month : Nat
  day : Nat
deriving DecidableEq

/-- Rata-die day number; agrees with Python `date.toordinal` on valid dates. -/
def Date.toDays (d : Date) : Nat :=
  daysBeforeYear d.year + daysBeforeMonth d.year d.month + d.day

/-- CPython compares dates by their ordinals. -/
instance : LE Date := ⟨fun a b => a.toDays ≤ b.toDays⟩

instance : LT Date := ⟨fun a b => a.toDays < b.toDays⟩

instance (a b : Date) : Decidable (a ≤ b) :=
  inferInstanceAs (Decidable (a.toDays ≤ b.toDays))

instance (a b : Date) : Decidable (a < b) :=
  inferInstanceAs (Decidable (a.toDays < b.toDays))

/-- A date reachable as an actual Python `datetime.date` value. -/
def Date.Valid (d : Date) : Prop :=
  1 ≤ d.year ∧ 1 ≤ d.month ∧ d.month ≤ 12 ∧ 1 ≤ d.day ∧ d.day ≤ daysInMonth d.year d.month

instance (d : Date) : Decidable d.Valid := by
  unfold Date.Valid
  infer_instance

/-- Month scan of `date.fromordinal`: splits a day count within year `y`
into month and day.  Fuel 12 always suffices; the fallback simply returns
the running pair. -/
def monthFix : Nat → Nat → Nat → Nat → Date
  | 0, y, m, n => ⟨y, m, n⟩
  | fuel + 1, y, m, n =>
    if daysInMonth y m < n ∧ m < 12 then monthFix fuel y (m + 1) (n - daysInMonth y m)
    else ⟨y, m, n⟩

/-- Year scan of `date.fromordinal`: peels whole years off a day count. -/
def yearFix : Nat → Nat → Nat → Date
  | 0, y, n => monthFix 12 y 1 n
  | fuel + 1, y, n =>
    if daysInYear y < n then yearFix fuel (y + 1) (n - daysInYear y)
    else monthFix 12 y 1 n

/-- Python `date.fromordinal` for `1 ≤ n` (total: junk below 1 is mapped
to a junk date with the same ordinal). -/
def Date.fromDays (n : Nat) : Date := yearFix n 1 n

/-- Python `d + timedelta(days = k)`; CPython computes exactly
`fromordinal (toordinal d + k)`. -/
def Date.addDays (d : Date) (k : Nat) : Date := Date.fromDays (d.toDays + k)

/-- Python `d - timedelta(days = 1)` on a valid date, written structurally. -/
def Date.prevDay (d : Date) : Date :=
  if 1 < d.day then ⟨d.year, d.month, d.day - 1⟩
  else if 1 < d.month then ⟨d.year, d.month - 1, daysInMonth d.year (d.month - 1)⟩
  else ⟨d.year - 1, 12, 31⟩

/-- Python `max` on two dates (first argument wins ties). -/
def Date.max (a b : Date) : Date := if a < b then b else a

/-- Python `min` on two dates (first argument wins ties). -/
def Date.min (a b : Date) : Date := if a ≤ b then a else b

/-- Python `date.weekday`: 0 = Monday.  Ordinal 1 (0001-01-01) is a Monday. -/
def Date.weekday (d : Date) : Nat := (d.toDays + 6) % 7

/-- Python absolute value on the (exact-rational model of) `float`. -/
def ratAbs (a : Rat) : Rat := if a < 0 then -a else a

/-- `TransactionType` from `src/models/transaction.py`. -/
inductive TransactionType
  | deposit
  | withdrawal
deriving DecidableEq

/-- The three members of the `RecurrencePattern` `str`-enum. -/
def patWeekly : String := "weekly"

def patBiweekly : String := "biweekly"

def patMonthly : String := "monthly"

/-- The `Transaction` entity (`src/models/transaction.py`).  `created_at`
is omitted (see the module docstring). -/
structure Transaction where
  id : Option Nat
  date : Date
  amount : Rat
  type : TransactionType
  description : String
  category : String
  payee : String
  recurring_template_id : Option Nat
  is_template : Bool
  recurrence_pattern : Option String
deriving DecidableEq

def errAmount : String := "Transaction amount must be positive"

def errTemplateId : String := "Template transactions cannot have a recurring_template_id"

def errTemplatePat : String := "Template transactions must have a recurrence_pattern"

def errInstancePat : String := "Instance transactions cannot have a recurrence_pattern"

/-- A pattern value outside the `RecurrencePattern` enum (to exercise the
enum coercion of `__init__`). -/
def patDaily : String := "daily"

/-- The message of the `ValueError` raised by `RecurrencePattern(s)` for a
non-member string `s` (Python quotes the value; the quoting is elided). -/
def errBadPattern (s : String) : String := s ++ " is not a valid RecurrencePattern"

/-- The `RecurrencePattern(recurrence_pattern)` coercion performed during
field assignment in `Transaction.__init__` (transaction.py lines 63-67):
a truthy string is looked up in the `str`-enum, raising `ValueError` for a
non-member; `None` and the falsy empty string skip the coercion and are
stored unchanged. -/
def coercePattern (p : Option String) : Except String (Option String) :=
  match p with
  | none => Except.ok none
  | some s =>
    if s = "" then Except.ok (some s)
    else if s = patWeekly ∨ s = patBiweekly ∨ s = patMonthly then Except.ok (some s)
    else Except.error (errBadPattern s)

/-- `Transaction._validate`. -/
def Transaction.validate (t : Transaction) : Except String Unit :=
  if t.amount ≤ 0 then .error errAmount
  else if t.is_template then
    if t.recurring_template_id ≠ none then .error errTemplateId
    else if t.recurrence_pattern = none then .error errTemplatePat
    else .ok ()
  else
    if t.recurring_template_id ≠ none ∧ t.recurrence_pattern ≠ none then .error errInstancePat
    else .ok ()

/-- The field assignments of `Transaction.__init__` (before `_validate`),
applied to the already-coerced pattern (see `coercePattern`): note
`self.amount = abs(amount)`.  The `description or ""` idiom is the
identity on strings and is inlined. -/
def Transaction.new (date : Date) (amount : Rat) (type : TransactionType)
    (description category payee : String) (recurring_template_id : Option Nat)
    (is_template : Bool) (recurrence_pattern : Option String) (id : Option Nat) :
    Transaction :=
  { id := id, date := date, amount := ratAbs amount, type := type,
    description := description, category := category, payee := payee,
    recurring_template_id := recurring_template_id, is_template := is_template,
    recurrence_pattern := recurrence_pattern }

/-- `Transaction.__init__`: assign fields — including the enum coercion of
the pattern, which can itself raise `ValueError` — then `_validate` (which
raises, modelled as `Except.error`). -/
def mkTransaction (date : Date) (amount : Rat) (type : TransactionType)
    (description category payee : String) (recurring_template_id : Option Nat)
    (is_template : Bool) (recurrence_pattern : Option String) (id : Option Nat) :
    Except String Transaction :=
  match coercePattern recurrence_pattern with
  | .error e => .error e
  | .ok p =>
    let t := Transaction.new date amount type description category payee
      recurring_template_id is_template p id
    match t.validate with
    | .error e => .error e
    | .ok _ => .ok t

/-- `Transaction.__eq__` between two transactions:
`self.id == other.id and self.id is not None`. -/
def Transaction.eq (a b : Transaction) : Bool := a.id == b.id && a.id.isSome

/-- `Transaction.get_signed_amount`. -/
def Transaction.get_signed_amount (t : Transaction) : Rat :=
  if t.type = TransactionType.deposit then t.amount else -t.amount

/-- The `transactions` table: rows plus the autoincrement counter. -/
structure Store where
  rows : List Transaction
  next_id : Nat

/-- `TransactionService.create_transaction`: INSERT, then set `id` from
`lastrowid`. -/
def Store.create (s : Store) (t : Transaction) : Transaction × Store :=
  let t2 := { t with id := some s.next_id }
  (t2, ⟨s.rows ++ [t2], s.next_id + 1⟩)

/-- Persisting a list of generated instances one by one, as the callers
of `generate_instances` do. -/
def Store.createAll (s : Store) : List Transaction → Store
  | [] => s
  | t :: ts => ((s.create t).2).createAll ts

/-- `TransactionService.get_transaction_instances`:
`SELECT * WHERE recurring_template_id = ?`.  A SQL comparison with NULL
never matches, hence the `none` case.  The `ORDER BY date` is dropped:
the only modelled caller uses the result as a set of dates. -/
def get_transaction_instances (rows : List Transaction) (template_id : Option Nat) :
    List Transaction :=
  match template_id with
  | none => []
  | some tid => rows.filter (fun t => t.recurring_template_id == some tid)

/-- `TransactionService.get_transactions_by_date_range` in the one
configuration used by the balance code: no type filter,
`include_templates = False`.  The `ORDER BY date, id` is dropped: the
modelled caller only sums over the result. -/
def get_transactions_by_date_range (rows : List Transaction) (start_date end_date : Date) :
    List Transaction :=
  rows.filter (fun t =>
    decide (start_date ≤ t.date) && decide (t.date ≤ end_date) && !t.is_template)

/-- `TransactionService.calculate_balance_up_to_date`: select all
non-template rows dated up to `target` and fold them, adding deposits and
subtracting withdrawals.  The `ORDER BY date, id` is dropped: addition of
exact rationals is commutative, so the fold is order-independent. -/
def calculate_balance_up_to_date (rows : List Transaction) (target : Date) : Rat :=
  let sel := rows.filter (fun t => decide (t.date ≤ target) && !t.is_template)
  sel.foldl
    (fun balance t =>
      if t.type = TransactionType.deposit then balance + t.amount else balance - t.amount)
    0

/-- One record of `calculate_weekly_balances`. -/
structure WeeklyBalance where
  week_start : Date
  week_end : Date
  starting_balance : Rat
  ending_balance : Rat
  net_change : Rat
deriving DecidableEq

/-- The week-end computation of `calculate_weekly_balances`: from the
week's first day to the following Sunday (`days_until_sunday = 0` means
the week starts on a Sunday and is a single day), clamped to the month
end. -/
def weekEndOf (week_start month_end : Date) : Date :=
  let days_until_sunday := (6 - week_start.weekday) % 7
  let week_end0 :=
    if days_until_sunday = 0 then week_start else week_start.addDays days_until_sunday
  Date.min week_end0 month_end

/-- The week's net change: the signed sum over the non-template
transactions of `[week_start, week_end]`. -/
def weekNet (rows : List Transaction) (week_start week_end : Date) : Rat :=
  ((get_transactions_by_date_range rows week_start week_end).map
    Transaction.get_signed_amount).sum

/-- The `while current_date <= month_end` loop of
`calculate_weekly_balances`.  In the source both branches of the
`current_date == month_start` test set `week_start = current_date` (the
computed `days_since_monday` is dead), so the branch is inlined.  The
fuel never runs out at the call site: each iteration advances the
ordinal of `current_date` by at least one. -/
def weekLoop (rows : List Transaction) (month_end : Date) :
    Nat → Rat → Date → List WeeklyBalance
  | 0, _, _ => []
  | fuel + 1, current_balance, current_date =>
    if current_date ≤ month_end then
      let week_end := weekEndOf current_date month_end
      let net_change := weekNet rows current_date week_end
      let wb : WeeklyBalance :=
        ⟨current_date, week_end, current_balance, current_balance + net_change, net_change⟩
      if week_end < month_end then
        wb :: weekLoop rows month_end fuel (current_balance + net_change) (week_end.addDays 1)
      else [wb]
    else []

/-- The last calendar day of the month before month `m` of year `y`
(December 31 of the previous year for January), as named by the
carry-over contract. -/
def lastDayOfPrevMonth (y m : Nat) : Date :=
  if m = 1 then ⟨y - 1, 12, 31⟩ else ⟨y, m - 1, daysInMonth y (m - 1)⟩

/-- `TransactionService.calculate_weekly_balances`.  The month-end day is
computed, as in the source, as the day difference between the next
month's first day and the month's first day. -/
def calculate_weekly_balances (rows : List Transaction) (year month : Nat) :
    List WeeklyBalance :=
  let next_month_start : Date :=
    if month = 12 then ⟨year + 1, 1, 1⟩ else ⟨year, month + 1, 1⟩
  let month_start : Date := ⟨year, month, 1⟩
  let month_end : Date := ⟨year, month, next_month_start.toDays - month_start.toDays⟩
  let prev_month_end := month_start.prevDay
  let starting_balance := calculate_balance_up_to_date rows prev_month_end
  weekLoop rows month_end (month_end.toDays + 1) starting_balance month_start

/-- The weekly/biweekly emission loop of `RecurrenceService._generate_dates`
(`while current_date <= range_end: append; current_date += step`).  The
fuel never runs out at the call sites: the step is positive, so each
iteration advances the ordinal. -/
def stepLoop : Nat → Nat → Date → Date → List Date
  | 0, _, _, _ => []
  | fuel + 1, step, current, range_end =>
    if current ≤ range_end then current :: stepLoop fuel step (current.addDays step) range_end
    else []

/-- `dateutil.relativedelta(months = 1)` addition: advance the month,
clamping the day to the length of the target month. -/
def relAddMonth (d : Date) : Date :=
  let y2 := if 12 ≤ d.month then d.year + 1 else d.year
  let m2 := if 12 ≤ d.month then 1 else d.month + 1
  ⟨y2, m2, min d.day (daysInMonth y2 m2)⟩

/-- The repeated source block computing the last day of `d`'s month as
`first day of next month - timedelta(days=1)`. -/
def lastDayFix (d : Date) : Date :=
  Date.prevDay (if d.month = 12 then ⟨d.year + 1, 1, 1⟩ else ⟨d.year, d.month + 1, 1⟩)

/-- One monthly advance of `_generate_dates`: `relativedelta(months=1)`,
then either snap to the last day of the month (`use_last_day`), or try
`date(y, m, anchor_day)` falling back to the last day when that day does
not exist (Python raises `ValueError` exactly when the day is out of
range for the month). -/
def monthlyStep (use_last_day : Bool) (anchor_day : Nat) (c : Date) : Date :=
  let c2 := relAddMonth c
  if use_last_day then lastDayFix c2
  else if 1 ≤ anchor_day ∧ anchor_day ≤ daysInMonth c2.year c2.month then
    ⟨c2.year, c2.month, anchor_day⟩
  else lastDayFix c2

/-- The monthly emission loop of `_generate_dates`.  The source wraps the
body in `try/except: break` solely to stop at Python's year-9999
overflow, which the unbounded model never reaches.  Fuel never runs out
at the call site for valid dates: each step advances the ordinal. -/
def monthlyLoop : Nat → Bool → Nat → Date → Date → List Date
  | 0, _, _, _, _ => []
  | fuel + 1, use_last_day, anchor_day, current, range_end =>
    if current ≤ range_end then
      current :: monthlyLoop fuel use_last_day anchor_day
        (monthlyStep use_last_day anchor_day current) range_end
    else []

/-- The `current_date` set-up of the monthly branch (source lines
147-186): start from `max(start_date, range_start)`; unless
`use_last_day`, realign a mismatched day of month to the anchor's day
(falling back to the month's last day when that day does not exist) and,
if the realignment stepped before the range, advance one month with the
same day-selection rule; finally never start before the template's own
date. -/
def monthlyPrelude (start_date range_start : Date) (use_last_day : Bool) : Date :=
  let current0 := Date.max start_date range_start
  let current1 :=
    if current0.day ≠ start_date.day ∧ use_last_day = false then
      let cTry :=
        if 1 ≤ start_date.day ∧ start_date.day ≤ daysInMonth current0.year current0.month
        then ⟨current0.year, current0.month, start_date.day⟩
        else lastDayFix current0
      if cTry < range_start then monthlyStep use_last_day start_date.day cTry else cTry
    else current0
  if current1 < start_date then start_date else current1

/-- `RecurrenceService._generate_dates`.  The pattern is compared as a
string, matching the `str`-enum `==` semantics of the source; a value
other than the three members falls through every branch and the initial
empty list is returned. -/
def generate_dates (start_date : Date) (pattern : String)
    (range_start range_end : Date) : List Date :=
  if pattern = patWeekly then
    let current :=
      if start_date < range_start then
        let weeks_to_skip := (range_start.toDays - start_date.toDays) / 7
        let c := start_date.addDays (7 * weeks_to_skip)
        if c < range_start then c.addDays 7 else c
      else start_date
    stepLoop (range_end.toDays + 1) 7 current range_end
  else if pattern = patBiweekly then
    let current :=
      if start_date < range_start then
        let biweeks_to_skip := (range_start.toDays - start_date.toDays) / 14
        let c := start_date.addDays (7 * (biweeks_to_skip * 2))
        if c < range_start then c.addDays 14 else c
      else start_date
    stepLoop (range_end.toDays + 1) 14 current range_end
  else if pattern = patMonthly then
    let start_month_last_day :=
      (Date.prevDay (if start_date.month = 12 then ⟨start_date.year + 1, 1, 1⟩
        else ⟨start_date.year, start_date.month + 1, 1⟩)).day
    let use_last_day : Bool := start_date.day == start_month_last_day
    monthlyLoop (range_end.toDays + 1) use_last_day start_date.day
      (monthlyPrelude start_date range_start use_last_day) range_end
  else []

/-- The instance produced inside the `generate_instances` loop: the
`Transaction(...)` call with fields copied from the template. -/
def mkInstance (template : Transaction) (d : Date) : Transaction :=
  Transaction.new d template.amount template.type template.description template.category
    template.payee template.id false none none

/-- The emission loop of `generate_instances`: skip dates already
instantiated (unless regenerating), otherwise construct the instance —
the constructor validates and can raise, which propagates. -/
def genLoop (template : Transaction) (existing_dates : List Date)
    (regenerate_existing : Bool) : List Date → Except String (List Transaction)
  | [] => .ok []
  | d :: ds =>
    if existing_dates.contains d && !regenerate_existing then
      genLoop template existing_dates regenerate_existing ds
    else
      match (mkInstance template d).validate with
      | .error e => .error e
      | .ok _ =>
        match genLoop template existing_dates regenerate_existing ds with
        | .error e => .error e
        | .ok rest => .ok (mkInstance template d :: rest)

def errNotTemplate : String := "Template transaction must have is_template=True"

def errNoPattern : String := "Template must have a recurrence_pattern"

/-- `RecurrenceService.generate_instances`.  It reads the store (the
existing instances of the template) and returns transient entities; it
performs no write. -/
def generate_instances (rows : List Transaction) (template : Transaction)
    (start_date end_date : Date) (regenerate_existing : Bool) :
    Except String (List Transaction) :=
  if template.is_template = false then .error errNotTemplate
  else
    match template.recurrence_pattern with
    | none => .error errNoPattern
    | some p =>
      let instance_dates := generate_dates template.date p start_date end_date
      let instance_dates2 := instance_dates.filter (fun d => decide (template.date ≤ d))
      let existing_dates :=
        (get_transaction_instances rows template.id).map (fun t => t.date)
      genLoop template existing_dates regenerate_existing instance_dates2

/-- The conjunction of properties claim C6 asserts of the weekly (step 7)
and biweekly (step 14) generators: exact arithmetic-progression
membership, gap-free ascending emission, and a minimal first candidate. -/
def AlignedGen (s : Nat) (A rS rE : Date) (L : List Date) : Prop :=
  (∀ d, d ∈ L ↔ ((∃ k, d = A.addDays (s * k)) ∧ Date.max A rS ≤ d ∧ d ≤ rE)) ∧
  List.Chain' (fun a b => b.toDays = a.toDays + s) L ∧
  (∃ first, (∃ k, first = A.addDays (s * k)) ∧ rS ≤ first ∧
    (∀ k, rS ≤ A.addDays (s * k) → first ≤ A.addDays (s * k)) ∧
    (rS ≤ A → first = A) ∧
    L.head? = (if first ≤ rE then some first else none))

/-- Concrete data used to witness the claims on sample inputs: a monthly
deposit template as in the repository's own tests. -/
def sampleTemplate : Transaction :=
  Transaction.new ⟨2024, 1, 15⟩ 100 TransactionType.deposit "Monthly deposit" "" ""
    none true (some patMonthly) (some 1)

def sampleInstances : List Transaction :=
  [mkInstance sampleTemplate ⟨2024, 1, 15⟩, mkInstance sampleTemplate ⟨2024, 2, 15⟩,
    mkInstance sampleTemplate ⟨2024, 3, 15⟩, mkInstance sampleTemplate ⟨2024, 4, 15⟩,
    mkInstance sampleTemplate ⟨2024, 5, 15⟩, mkInstance sampleTemplate ⟨2024, 6, 15⟩]

/-! ### Calendar arithmetic lemmas -/

theorem daysInMonth_pos (y m : Nat) : 1 ≤ daysInMonth y m := by
  unfold daysInMonth
  split
  · split <;> omega
  · split <;> omega

theorem daysInMonth_twelve (y : Nat) : daysInMonth y 12 = 31 := by
  simp [daysInMonth]

theorem daysBeforeMonth_succ (y m : Nat) (h : 1 ≤ m) :
    daysBeforeMonth y (m + 1) = daysBeforeMonth y m + daysInMonth y m := by
  obtain ⟨j, rfl⟩ : ∃ j, m = j + 1 := ⟨m - 1, by omega⟩
  rfl

theorem daysBeforeMonth_le_succ (y m : Nat) :
    daysBeforeMonth y m ≤ daysBeforeMonth y (m + 1) := by
  cases m with
  | zero => simp [daysBeforeMonth]
  | succ j => rw [daysBeforeMonth_succ y (j + 1) (by omega)]; omega

theorem daysBeforeMonth_mono (y : Nat) {a b : Nat} (h : a ≤ b) :
    daysBeforeMonth y a ≤ daysBeforeMonth y b :=
  monotone_nat_of_le_succ (daysBeforeMonth_le_succ y) h

theorem daysBeforeMonth_thirteen (y : Nat) : daysBeforeMonth y 13 = daysInYear y := by
  show daysBeforeMonth y (11 + 2) = daysInYear y
  simp only [daysBeforeMonth, daysInMonth, daysInYear]
  cases h : isLeap y <;> simp [h]

theorem daysInYear_ge (y : Nat) : 365 ≤ daysInYear y := by
  unfold daysInYear; split <;> omega

theorem daysInYear_eq (y : Nat) :
    daysInYear y = if (y % 4 = 0 ∧ ¬ y % 100 = 0) ∨ y % 400 = 0 then 366 else 365 := by
  simp only [daysInYear, isLeap, Bool.or_eq_true, Bool.and_eq_true, beq_iff_eq,
    bne_iff_ne, ne_eq]

theorem daysBeforeYear_succ (y : Nat) (h : 1 ≤ y) :
    daysBeforeYear (y + 1) = daysBeforeYear y + daysInYear y := by
  rw [daysInYear_eq]
  simp only [daysBeforeYear]
  split <;> omega

theorem daysBeforeYear_le_succ (y : Nat) : daysBeforeYear y ≤ daysBeforeYear (y + 1) := by
  cases y with
  | zero => simp [daysBeforeYear]
  | succ j => rw [daysBeforeYear_succ (j + 1) (by omega)]; omega

theorem daysBeforeYear_mono {a b : Nat} (h : a ≤ b) :
    daysBeforeYear a ≤ daysBeforeYear b :=
  monotone_nat_of_le_succ daysBeforeYear_le_succ h

theorem daysBeforeYear_lower (y : Nat) : 365 * (y - 1) ≤ daysBeforeYear y :=
  Nat.le_add_right _ _

theorem toDays_mk (y m day : Nat) :
    (Date.mk y m day).toDays = daysBeforeYear y + daysBeforeMonth y m + day := rfl

theorem valid_mk {y m day : Nat} :
    (Date.mk y m day).Valid ↔
      1 ≤ y ∧ 1 ≤ m ∧ m ≤ 12 ∧ 1 ≤ day ∧ day ≤ daysInMonth y m := Iff.rfl

theorem daysBeforeMonth_one (y : Nat) : daysBeforeMonth y 1 = 0 := rfl

theorem daysBeforeMonth_from_twelve (y : Nat) :
    daysBeforeMonth y 13 = daysBeforeMonth y 12 + daysInMonth y 12 :=
  daysBeforeMonth_succ y 12 (by omega)

theorem monthFix_spec (fuel : Nat) :
    ∀ y m n : Nat, 1 ≤ m → m ≤ 12 → 1 ≤ n →
      n + daysBeforeMonth y m ≤ daysBeforeMonth y 13 → 12 - m ≤ fuel →
      (monthFix fuel y m n).toDays = daysBeforeYear y + daysBeforeMonth y m + n ∧
      (1 ≤ y → (monthFix fuel y m n).Valid) := by
  induction fuel with
  | zero =>
    intro y m n h1 h2 h3 h4 h5
    have hm : m = 12 := by omega
    subst hm
    have hs := daysBeforeMonth_from_twelve y
    exact ⟨rfl, fun hy => valid_mk.2 ⟨hy, by omega, by omega, h3, by omega⟩⟩
  | succ fuel ih =>
    intro y m n h1 h2 h3 h4 h5
    simp only [monthFix]
    split
    · rename_i hg
      obtain ⟨hlt, hm12⟩ := hg
      have hs : daysBeforeMonth y (m + 1) =
          daysBeforeMonth y m + daysInMonth y m := daysBeforeMonth_succ y m h1
      have := ih y (m + 1) (n - daysInMonth y m) (by omega) (by omega) (by omega)
        (by omega) (by omega)
      refine ⟨?_, this.2⟩
      rw [this.1]; omega
    · rename_i hg
      have hday : n ≤ daysInMonth y m := by
        rcases Nat.lt_or_ge m 12 with hm | hm
        · by_contra hc; exact hg ⟨by omega, hm⟩
        · have hm' : m = 12 := by omega
          subst hm'
          have hs := daysBeforeMonth_from_twelve y
          omega
      exact ⟨rfl, fun hy => valid_mk.2 ⟨hy, h1, h2, h3, hday⟩⟩

theorem yearFix_spec (fuel : Nat) :
    ∀ y n : Nat, 1 ≤ y → 1 ≤ n → n ≤ 365 * fuel + daysInYear y →
      (yearFix fuel y n).toDays = daysBeforeYear y + n ∧ (yearFix fuel y n).Valid := by
  induction fuel with
  | zero =>
    intro y n hy hn hb
    have h13 := daysBeforeMonth_thirteen y
    have hb1 := daysBeforeMonth_one y
    have := monthFix_spec 12 y 1 n (by omega) (by omega) hn (by omega) (by omega)
    simp only [yearFix]
    refine ⟨?_, this.2 hy⟩
    rw [this.1]; omega
  | succ fuel ih =>
    intro y n hy hn hb
    simp only [yearFix]
    split
    · rename_i hg
      have hge := daysInYear_ge (y + 1)
      have := ih (y + 1) (n - daysInYear y) (by omega) (by omega) (by omega)
      refine ⟨?_, this.2⟩
      rw [this.1, daysBeforeYear_succ y hy]; omega
    · rename_i hg
      have h13 := daysBeforeMonth_thirteen y
      have hb1 := daysBeforeMonth_one y
      have := monthFix_spec 12 y 1 n (by omega) (by omega) hn (by omega) (by omega)
      refine ⟨?_, this.2 hy⟩
      rw [this.1]; omega

theorem toDays_fromDays (n : Nat) : (Date.fromDays n).toDays = n := by
  cases n with
  | zero => decide
  | succ j =>
    have h0 : daysBeforeYear 1 = 0 := by decide
    have := yearFix_spec (j + 1) 1 (j + 1) (by omega) (by omega)
      (by have := daysInYear_ge 1; omega)
    unfold Date.fromDays
    rw [this.1, h0]
    omega

theorem fromDays_valid (n : Nat) (h : 1 ≤ n) : (Date.fromDays n).Valid := by
  obtain ⟨j, rfl⟩ : ∃ j, n = j + 1 := ⟨n - 1, by omega⟩
  exact (yearFix_spec (j + 1) 1 (j + 1) (by omega) (by omega)
    (by have := daysInYear_ge 1; omega)).2

theorem addDays_toDays (d : Date) (k : Nat) : (d.addDays k).toDays = d.toDays + k :=
  toDays_fromDays _

theorem addDays_valid (d : Date) (k : Nat) (h : 1 ≤ d.toDays + k) :
    (d.addDays k).Valid := fromDays_valid _ h

theorem monthFix_peel (fuel : Nat) :
    ∀ j n y m day : Nat, 1 ≤ j → j ≤ m → m ≤ 12 → 1 ≤ day → day ≤ daysInMonth y m →
      12 - j ≤ fuel → n + daysBeforeMonth y j = daysBeforeMonth y m + day →
      monthFix fuel y j n = ⟨y, m, day⟩ := by
  induction fuel with
  | zero =>
    intro j n y m day h1 h2 h3 h4 h5 h6 h7
    have hj : j = 12 := by omega
    have hm : m = 12 := by omega
    subst hj; subst hm
    have : n = day := by omega
    simp [monthFix, this]
  | succ fuel ih =>
    intro j n y m day h1 h2 h3 h4 h5 h6 h7
    rcases Nat.lt_or_ge j m with hjm | hjm
    · have hs := daysBeforeMonth_succ y j h1
      have hmono := daysBeforeMonth_mono y (show j + 1 ≤ m by omega)
      simp only [monthFix]
      rw [if_pos ⟨by omega, by omega⟩]
      exact ih (j + 1) (n - daysInMonth y j) y m day (by omega) (by omega) h3 h4 h5
        (by omega) (by omega)
    · have hj : j = m := by omega
      subst hj
      have : n = day := by omega
      subst this
      simp only [monthFix]
      rw [if_neg (by omega)]

theorem yearFix_peel (fuel : Nat) :
    ∀ y0 n y m day : Nat, 1 ≤ y0 → y0 ≤ y → 1 ≤ m → m ≤ 12 → 1 ≤ day →
      day ≤ daysInMonth y m → y - y0 ≤ fuel →
      n + daysBeforeYear y0 = daysBeforeYear y + daysBeforeMonth y m + day →
      yearFix fuel y0 n = ⟨y, m, day⟩ := by
  have final : ∀ y n m day : Nat, 1 ≤ m → m ≤ 12 → 1 ≤ day → day ≤ daysInMonth y m →
      n = daysBeforeMonth y m + day →
      ¬ daysInYear y < n ∧ monthFix 12 y 1 n = ⟨y, m, day⟩ := by
    intro y n m day h1 h2 h3 h4 h5
    have hs : daysBeforeMonth y (m + 1) =
        daysBeforeMonth y m + daysInMonth y m := daysBeforeMonth_succ y m h1
    have hmono := daysBeforeMonth_mono y (show m + 1 ≤ 13 by omega)
    have h13 := daysBeforeMonth_thirteen y
    have hb1 := daysBeforeMonth_one y
    constructor
    · omega
    · exact monthFix_peel 12 1 n y m day (by omega) h1 h2 h3 h4 (by omega) (by omega)
  induction fuel with
  | zero =>
    intro y0 n y m day h1 h2 h3 h4 h5 h6 h7 h8
    have hy : y0 = y := by omega
    subst hy
    have hf := final y0 n m day h3 h4 h5 h6 (by omega)
    simp only [yearFix]
    exact hf.2
  | succ fuel ih =>
    intro y0 n y m day h1 h2 h3 h4 h5 h6 h7 h8
    rcases Nat.lt_or_ge y0 y with hlt | hge
    · have hsucc := daysBeforeYear_succ y0 h1
      have hmono := daysBeforeYear_mono (show y0 + 1 ≤ y by omega)
      simp only [yearFix]
      rw [if_pos (by omega)]
      exact ih (y0 + 1) (n - daysInYear y0) y m day (by omega) (by omega) h3 h4 h5 h6
        (by omega) (by omega)
    · have hy : y0 = y := by omega
      subst hy
      have hf := final y0 n m day h3 h4 h5 h6 (by omega)
      simp only [yearFix]
      rw [if_neg hf.1]
      exact hf.2

theorem fromDays_toDays (d : Date) (h : d.Valid) : Date.fromDays d.toDays = d := by
  obtain ⟨hy, hm1, hm2, hd1, hd2⟩ := h
  have hlow := daysBeforeYear_lower d.year
  have h0 : daysBeforeYear 1 = 0 := by decide
  have htd : d.toDays = daysBeforeYear d.year + daysBeforeMonth d.year d.month + d.day := rfl
  unfold Date.fromDays
  rw [yearFix_peel d.toDays 1 d.toDays d.year d.month d.day (by omega) hy hm1 hm2 hd1 hd2
    (by omega) (by omega)]

theorem addDays_zero (d : Date) (h : d.Valid) : d.addDays 0 = d := by
  unfold Date.addDays
  rw [Nat.add_zero]
  exact fromDays_toDays d h

theorem addDays_addDays (d : Date) (a b : Nat) :
    (d.addDays a).addDays b = d.addDays (a + b) := by
  unfold Date.addDays
  rw [toDays_fromDays, Nat.add_assoc]

theorem prevDay_toDays (d : Date) (h : d.Valid)
    (h2 : 2 ≤ d.year ∨ 2 ≤ d.month ∨ 2 ≤ d.day) :
    d.prevDay.toDays = d.toDays - 1 := by
  obtain ⟨hy, hm1, hm2, hd1, hd2⟩ := h
  unfold Date.prevDay
  split
  · rename_i hday
    simp only [Date.toDays]; omega
  · rename_i hday
    split
    · rename_i hmon
      have hs : daysBeforeMonth d.year ((d.month - 1) + 1) =
          daysBeforeMonth d.year (d.month - 1) + daysInMonth d.year (d.month - 1) :=
        daysBeforeMonth_succ d.year (d.month - 1) (by omega)
      have hmm : (d.month - 1) + 1 = d.month := by omega
      rw [hmm] at hs
      simp only [Date.toDays]; omega
    · rename_i hmon
      have hyy : 2 ≤ d.year := by omega
      have hs := daysBeforeYear_succ (d.year - 1) (by omega)
      have hyy2 : (d.year - 1) + 1 = d.year := by omega
      rw [hyy2] at hs
      have h13 := daysBeforeMonth_thirteen (d.year - 1)
      have h12 : daysBeforeMonth (d.year - 1) 13 =
          daysBeforeMonth (d.year - 1) 12 + daysInMonth (d.year - 1) 12 :=
        daysBeforeMonth_succ (d.year - 1) 12 (by omega)
      have h31 := daysInMonth_twelve (d.year - 1)
      have hm : d.month = 1 := by omega
      have hday : d.day = 1 := by omega
      have hbm : daysBeforeMonth d.year d.month = 0 := by
        rw [hm]; rfl
      simp only [Date.toDays]; omega

theorem prevDay_month_first (y m : Nat) (h : 1 ≤ m) :
    Date.prevDay ⟨y, m + 1, 1⟩ = ⟨y, m, daysInMonth y m⟩ := by
  unfold Date.prevDay
  simp only
  rw [if_neg (by omega), if_pos (by omega)]
  simp

theorem prevDay_jan (y : Nat) : Date.prevDay ⟨y + 1, 1, 1⟩ = ⟨y, 12, 31⟩ := by
  unfold Date.prevDay
  simp

theorem lastDayFix_eq (y m d : Nat) (h1 : 1 ≤ m) (h2 : m ≤ 12) :
    lastDayFix ⟨y, m, d⟩ = ⟨y, m, daysInMonth y m⟩ := by
  unfold lastDayFix
  simp only
  split
  · rename_i hm
    subst hm
    rw [prevDay_jan, daysInMonth_twelve]
  · rename_i hm
    obtain ⟨j, rfl⟩ : ∃ j, m = j + 1 := ⟨m - 1, by omega⟩
    exact prevDay_month_first y (j + 1) (by omega)

theorem toDays_month_end (y m : Nat) (hy : 1 ≤ y) (h1 : 1 ≤ m) (h2 : m ≤ 12) :
    (Date.toDays ⟨y, m, daysInMonth y m⟩) + 1 =
      Date.toDays (if m = 12 then ⟨y + 1, 1, 1⟩ else ⟨y, m + 1, 1⟩) := by
  have hs := daysBeforeMonth_succ y m h1
  split
  · rename_i hm
    subst hm
    have h13 := daysBeforeMonth_thirteen y
    have hys := daysBeforeYear_succ y hy
    have h12 : daysBeforeMonth y 13 = daysBeforeMonth y 12 + daysInMonth y 12 :=
      daysBeforeMonth_succ y 12 (by omega)
    simp only [Date.toDays]
    have hb1 : daysBeforeMonth (y + 1) 1 = 0 := rfl
    omega
  · simp only [Date.toDays]; omega

/-! ### Entity-model lemmas and claims C2, C7, C10 -/

theorem ratAbs_nonpos_iff (a : Rat) : ratAbs a ≤ 0 ↔ a = 0 := by
  unfold ratAbs
  split
  · rename_i h
    constructor
    · intro hle
      nlinarith
    · intro h0
      simp [h0] at h
  · rename_i h
    push_neg at h
    constructor
    · intro hle
      linarith
    · intro h0
      simp [h0]

theorem ratAbs_of_pos (a : Rat) (h : 0 < a) : ratAbs a = a := by
  unfold ratAbs
  rw [if_neg (by linarith)]

/-- C2 (counterexample): constructing a `Transaction` with the strictly
negative amount `-5` does not raise — it succeeds, and the stored amount
is the absolute value `5`. -/
theorem c2_counterexample :
    (mkTransaction ⟨2024, 1, 5⟩ (-5) TransactionType.withdrawal "" "" "" none false
        none none).toOption.map Transaction.amount = some 5 := by
  decide

/-- C2 (amended): constructing with amount `0` raises the validation
error, but a nonzero amount never raises: the constructor silently stores
the absolute value `ratAbs a`, so strictly negative amounts are
auto-corrected rather than rejected. -/
theorem c2_zero_rejected_negative_corrected (d : Date) (a : Rat) (ty : TransactionType)
    (ds cat pay : String) :
    mkTransaction d 0 ty ds cat pay none false none none = .error errAmount ∧
    (mkTransaction d a ty ds cat pay none false none none).toOption.map Transaction.amount
      = if a = 0 then none else some (ratAbs a) := by
  constructor
  · simp [mkTransaction, coercePattern, Transaction.new, Transaction.validate, ratAbs,
      Except.toOption]
  · by_cases h : a = 0
    · subst h
      simp [mkTransaction, coercePattern, Transaction.new, Transaction.validate, ratAbs,
        Except.toOption]
    · rw [if_neg h]
      have hok : ¬ ratAbs a ≤ 0 := fun hc => h ((ratAbs_nonpos_iff a).1 hc)
      simp [mkTransaction, coercePattern, Transaction.new, Transaction.validate, hok,
        Except.toOption]

/-- C7 (counterexample): a non-template transaction with
`recurring_template_id = none` and a non-null `recurrence_pattern` is
accepted by the constructor — validation does not reject it. -/
theorem c7_counterexample :
    (mkTransaction ⟨2024, 1, 5⟩ 5 TransactionType.deposit "" "" "" none false
        (some patWeekly) none).toOption.map Transaction.recurrence_pattern
      = some (some patWeekly) := by
  decide

/-- C7 (amended): a non-template transaction with both a
`recurring_template_id` and a `recurrence_pattern` is always rejected at
construction; with a null template id, a member pattern string (or the
falsy empty string, which skips the enum coercion) is accepted and kept,
while any other non-empty pattern string raises the `ValueError` of the
`RecurrencePattern` enum coercion — not the instance invariant. -/
theorem c7_instance_pattern_check (d : Date) (a : Rat) (ty : TransactionType)
    (ds cat pay : String) (k : Nat) (pat : String) (i : Option Nat) :
    (mkTransaction d a ty ds cat pay (some k) false (some pat) i).toOption = none ∧
    (a ≠ 0 → (pat = "" ∨ pat = patWeekly ∨ pat = patBiweekly ∨ pat = patMonthly) →
      (mkTransaction d a ty ds cat pay none false (some pat) i).toOption.map
        Transaction.recurrence_pattern = some (some pat)) ∧
    (pat ≠ "" → pat ≠ patWeekly → pat ≠ patBiweekly → pat ≠ patMonthly →
      mkTransaction d a ty ds cat pay none false (some pat) i
        = .error (errBadPattern pat)) := by
  refine ⟨?_, ?_, ?_⟩
  · by_cases h0 : pat = ""
    · subst h0
      by_cases h : ratAbs a ≤ 0 <;>
        simp [mkTransaction, coercePattern, Transaction.new, Transaction.validate, h,
          Except.toOption]
    · by_cases hm : pat = patWeekly ∨ pat = patBiweekly ∨ pat = patMonthly
      · by_cases h : ratAbs a ≤ 0 <;>
          simp [mkTransaction, coercePattern, Transaction.new, Transaction.validate, h0,
            hm, h, Except.toOption]
      · simp [mkTransaction, coercePattern, h0, hm, Except.toOption]
  · intro ha hm
    have hok : ¬ ratAbs a ≤ 0 := fun hc => ha ((ratAbs_nonpos_iff a).1 hc)
    rcases hm with h0 | hmem
    · subst h0
      simp [mkTransaction, coercePattern, Transaction.new, Transaction.validate, hok,
        Except.toOption]
    · have hne : pat ≠ "" := by rcases hmem with rfl | rfl | rfl <;> decide
      simp [mkTransaction, coercePattern, Transaction.new, Transaction.validate, hne,
        hmem, hok, Except.toOption]
  · intro h0 h1 h2 h3
    simp [mkTransaction, coercePattern, h0, h1, h2, h3]

theorem c7_witness :
    (mkTransaction ⟨2024, 1, 5⟩ 5 TransactionType.deposit "" "" "" (some 3) false
        (some patWeekly) none).toOption = none ∧
    (mkTransaction ⟨2024, 1, 5⟩ 5 TransactionType.deposit "" "" "" none false
        (some patWeekly) none).toOption.map Transaction.recurrence_pattern
      = some (some patWeekly) ∧
    mkTransaction ⟨2024, 1, 5⟩ 5 TransactionType.deposit "" "" "" none false
        (some patDaily) none = .error (errBadPattern patDaily) :=
  ⟨(c7_instance_pattern_check ⟨2024, 1, 5⟩ 5 TransactionType.deposit "" "" "" 3
      patWeekly none).1,
    (c7_instance_pattern_check ⟨2024, 1, 5⟩ 5 TransactionType.deposit "" "" "" 3
      patWeekly none).2.1 (by norm_num) (by decide),
    (c7_instance_pattern_check ⟨2024, 1, 5⟩ 5 TransactionType.deposit "" "" "" 3
      patDaily none).2.2 (by decide) (by decide) (by decide) (by decide)⟩

/-- C10: `Transaction.__eq__` is id-based only: two transactions compare
equal exactly when both carry the same non-null id, and a transaction
with a null id is not even equal to itself. -/
theorem c10_id_based_equality :
    (∀ a b : Transaction,
      Transaction.eq a b = true ↔ ∃ n, a.id = some n ∧ b.id = some n) ∧
    (∀ a : Transaction, a.id = none → Transaction.eq a a = false) := by
  constructor
  · intro a b
    unfold Transaction.eq
    rw [Bool.and_eq_true, beq_iff_eq, Option.isSome_iff_exists]
    constructor
    · rintro ⟨heq, n, hn⟩
      exact ⟨n, hn, heq ▸ hn⟩
    · rintro ⟨n, ha, hb⟩
      exact ⟨ha.trans hb.symm, n, ha⟩
  · intro a h
    unfold Transaction.eq
    simp [h]

theorem c10_witness :
    Transaction.eq
        (Transaction.new ⟨2024, 1, 1⟩ 5 TransactionType.deposit "" "" "" none false
          none none)
        (Transaction.new ⟨2024, 1, 1⟩ 5 TransactionType.deposit "" "" "" none false
          none none) = false ∧
    Transaction.eq
        (Transaction.new ⟨2024, 1, 1⟩ 5 TransactionType.deposit "a" "" "" none false
          none (some 7))
        (Transaction.new ⟨2024, 2, 2⟩ 8 TransactionType.withdrawal "b" "" "" none false
          none (some 7)) = true :=
  ⟨c10_id_based_equality.2 _ rfl,
    (c10_id_based_equality.1 _ _).2 ⟨7, rfl, rfl⟩⟩

/-! ### Weekly/biweekly generation: loop lemmas and claim C6 -/

theorem date_le_def (a b : Date) : a ≤ b ↔ a.toDays ≤ b.toDays := Iff.rfl

theorem date_lt_def (a b : Date) : a < b ↔ a.toDays < b.toDays := Iff.rfl

theorem date_max_le_iff (a b c : Date) : Date.max a b ≤ c ↔ a ≤ c ∧ b ≤ c := by
  unfold Date.max
  split <;> rename_i h <;> rw [date_lt_def] at h <;>
    simp only [date_le_def] <;> omega

theorem date_min_toDays_le_left (a b : Date) : (Date.min a b).toDays ≤ a.toDays := by
  unfold Date.min
  split <;> rename_i h
  · omega
  · rw [date_le_def] at h
    omega

theorem date_min_toDays_le_right (a b : Date) : (Date.min a b).toDays ≤ b.toDays := by
  unfold Date.min
  split <;> rename_i h
  · rw [date_le_def] at h
    omega
  · omega

theorem date_min_toDays_ge (a b : Date) (c : Nat) (h1 : c ≤ a.toDays)
    (h2 : c ≤ b.toDays) : c ≤ (Date.min a b).toDays := by
  unfold Date.min
  split <;> omega

theorem valid_toDays_pos (d : Date) (h : d.Valid) : 1 ≤ d.toDays := by
  obtain ⟨-, -, -, hd, -⟩ := h
  unfold Date.toDays
  omega

theorem stepLoop_subset (s : Nat) (rE : Date) :
    ∀ fuel cur, cur.Valid → ∀ d ∈ stepLoop fuel s cur rE,
      (∃ j, d = cur.addDays (s * j)) ∧ d ≤ rE := by
  intro fuel
  induction fuel with
  | zero => intro cur hv d hd; simp [stepLoop] at hd
  | succ fuel ih =>
    intro cur hv d hd
    simp only [stepLoop] at hd
    split at hd
    · rename_i hg
      rcases List.mem_cons.1 hd with heq | hd2
      · exact ⟨⟨0, by rw [heq, Nat.mul_zero, addDays_zero cur hv]⟩, heq ▸ hg⟩
      · have hv2 : (cur.addDays s).Valid :=
          addDays_valid cur s (by have := valid_toDays_pos cur hv; omega)
        obtain ⟨⟨j, hj⟩, hle⟩ := ih (cur.addDays s) hv2 d hd2
        refine ⟨⟨j + 1, ?_⟩, hle⟩
        rw [hj, addDays_addDays]
        congr 1
        ring
    · simp at hd

theorem stepLoop_mem (s : Nat) (hs : 0 < s) (rE : Date) :
    ∀ j fuel cur, cur.Valid → rE.toDays + 1 ≤ cur.toDays + s * fuel →
      cur.addDays (s * j) ≤ rE →
      cur.addDays (s * j) ∈ stepLoop fuel s cur rE := by
  intro j
  induction j with
  | zero =>
    intro fuel cur hv hfuel hle
    rw [Nat.mul_zero, addDays_zero cur hv] at hle ⊢
    rw [date_le_def] at hle
    cases fuel with
    | zero =>
      have hz : s * 0 = 0 := Nat.mul_zero s
      omega
    | succ fuel =>
      simp only [stepLoop]
      rw [if_pos (by rw [date_le_def]; omega)]
      exact List.mem_cons_self _ _
  | succ j ih =>
    intro fuel cur hv hfuel hle
    have hle2 := hle
    rw [date_le_def, addDays_toDays] at hle2
    have e1 : s * (j + 1) = s * j + s := by ring
    cases fuel with
    | zero =>
      have hz : s * 0 = 0 := Nat.mul_zero s
      omega
    | succ fuel =>
      have e2 : s * (fuel + 1) = s * fuel + s := by ring
      simp only [stepLoop]
      rw [if_pos (by rw [date_le_def]; omega)]
      apply List.mem_cons_of_mem
      have hcpos := valid_toDays_pos cur hv
      have hv2 : (cur.addDays s).Valid := addDays_valid cur s (by omega)
      have hsplit : cur.addDays (s * (j + 1)) = (cur.addDays s).addDays (s * j) := by
        rw [addDays_addDays]
        congr 1
        omega
      rw [hsplit]
      apply ih fuel (cur.addDays s) hv2
      · rw [addDays_toDays]
        omega
      · rw [date_le_def, addDays_toDays, addDays_toDays]
        omega

theorem stepLoop_head (fuel s : Nat) (cur rE : Date) :
    (stepLoop fuel s cur rE).head? = if 1 ≤ fuel ∧ cur ≤ rE then some cur else none := by
  cases fuel with
  | zero => simp [stepLoop]
  | succ fuel =>
    simp only [stepLoop]
    split
    · rename_i h
      rw [if_pos ⟨by omega, h⟩]
      rfl
    · rename_i h
      rw [if_neg (by intro hc; exact h hc.2)]
      rfl

theorem stepLoop_chain (s : Nat) (rE : Date) :
    ∀ fuel cur, List.Chain' (fun a b => b.toDays = a.toDays + s) (stepLoop fuel s cur rE) := by
  intro fuel
  induction fuel with
  | zero => intro cur; simp [stepLoop]
  | succ fuel ih =>
    intro cur
    simp only [stepLoop]
    split
    · apply List.chain'_cons'.2
      refine ⟨?_, ih (cur.addDays s)⟩
      intro b hb
      rw [stepLoop_head] at hb
      split at hb
      · simp only [Option.mem_def, Option.some.injEq] at hb
        rw [← hb, addDays_toDays]
      · simp at hb
    · simp

theorem addDays_le_addDays (d : Date) {a b : Nat} (h : a ≤ b) :
    d.addDays a ≤ d.addDays b := by
  rw [date_le_def, addDays_toDays, addDays_toDays]
  omega

/-- The weekly/biweekly fast-forward prelude of `_generate_dates`
computes a candidate of the form `anchor + s·k`, at least `range_start`,
minimal among all such candidates, and equal to the anchor itself when
the anchor is already in range. -/
theorem prelude_spec (s : Nat) (hs : 0 < s) (A rS : Date) (hA : A.Valid) (cur : Date)
    (hcur : cur =
      if A < rS then
        (if A.addDays (s * ((rS.toDays - A.toDays) / s)) < rS then
          (A.addDays (s * ((rS.toDays - A.toDays) / s))).addDays s
        else A.addDays (s * ((rS.toDays - A.toDays) / s)))
      else A) :
    cur.Valid ∧ (∃ k, cur = A.addDays (s * k)) ∧ rS ≤ cur ∧ (rS ≤ A → cur = A) ∧
    (∀ k, rS ≤ A.addDays (s * k) → cur ≤ A.addDays (s * k)) := by
  have hApos := valid_toDays_pos A hA
  by_cases hlt : A < rS
  · rw [hcur, if_pos hlt]
    rw [date_lt_def] at hlt
    set gap := rS.toDays - A.toDays with hgap
    set q := gap / s with hq
    have hdm : s * q + gap % s = gap := Nat.div_add_mod gap s
    have hr : gap % s < s := Nat.mod_lt _ hs
    have hc : (A.addDays (s * q)).toDays = A.toDays + s * q := addDays_toDays A (s * q)
    by_cases hcs : A.addDays (s * q) < rS
    · rw [if_pos hcs]
      rw [date_lt_def, hc] at hcs
      have hrpos : 0 < gap % s := by omega
      have hform : (A.addDays (s * q)).addDays s = A.addDays (s * (q + 1)) := by
        rw [addDays_addDays, Nat.mul_succ]
      have htd : ((A.addDays (s * q)).addDays s).toDays = A.toDays + s * q + s := by
        rw [addDays_toDays, hc]
      refine ⟨addDays_valid _ _ (by rw [hc]; omega), ⟨q + 1, hform⟩, ?_, ?_, ?_⟩
      · rw [date_le_def, htd]
        omega
      · intro hc2
        rw [date_le_def] at hc2
        omega
      · intro k hk
        rw [date_le_def, addDays_toDays] at hk
        have h1 : s * q < s * k := by omega
        have h2 : q < k := Nat.lt_of_mul_lt_mul_left h1
        have h3 : s * (q + 1) ≤ s * k := Nat.mul_le_mul_left s h2
        have h4 : s * q + s ≤ s * k := by rw [Nat.mul_succ] at h3; exact h3
        rw [date_le_def, htd, addDays_toDays]
        omega
    · rw [if_neg hcs]
      rw [date_lt_def, hc] at hcs
      refine ⟨addDays_valid _ _ (by omega), ⟨q, rfl⟩, ?_, ?_, ?_⟩
      · rw [date_le_def, hc]
        omega
      · intro hc2
        rw [date_le_def] at hc2
        omega
      · intro k hk
        rw [date_le_def, addDays_toDays] at hk
        rw [date_le_def, hc, addDays_toDays]
        omega
  · rw [hcur, if_neg hlt]
    rw [date_lt_def] at hlt
    refine ⟨hA, ⟨0, by rw [Nat.mul_zero, addDays_zero A hA]⟩, ?_, fun _ => rfl, ?_⟩
    · rw [date_le_def]
      omega
    · intro k hk
      rw [date_le_def, addDays_toDays]
      omega

/-- The two `_generate_dates` branches reduced to `stepLoop` over the
prelude candidate. -/
theorem generate_dates_weekly_eq (A rS rE : Date) :
    generate_dates A patWeekly rS rE =
      stepLoop (rE.toDays + 1) 7
        (if A < rS then
          (if A.addDays (7 * ((rS.toDays - A.toDays) / 7)) < rS then
            (A.addDays (7 * ((rS.toDays - A.toDays) / 7))).addDays 7
          else A.addDays (7 * ((rS.toDays - A.toDays) / 7)))
        else A) rE := by
  unfold generate_dates
  rw [if_pos rfl]

theorem generate_dates_biweekly_eq (A rS rE : Date) :
    generate_dates A patBiweekly rS rE =
      stepLoop (rE.toDays + 1) 14
        (if A < rS then
          (if A.addDays (14 * ((rS.toDays - A.toDays) / 14)) < rS then
            (A.addDays (14 * ((rS.toDays - A.toDays) / 14))).addDays 14
          else A.addDays (14 * ((rS.toDays - A.toDays) / 14)))
        else A) rE := by
  unfold generate_dates
  rw [if_neg (by decide), if_pos rfl]
  simp only [show ∀ x : Nat, 7 * (x * 2) = 14 * x from fun x => by ring]

theorem alignedGen_of_loop (s : Nat) (hs : 0 < s) (A rS rE : Date) (hA : A.Valid)
    (cur : Date)
    (hcur : cur =
      if A < rS then
        (if A.addDays (s * ((rS.toDays - A.toDays) / s)) < rS then
          (A.addDays (s * ((rS.toDays - A.toDays) / s))).addDays s
        else A.addDays (s * ((rS.toDays - A.toDays) / s)))
      else A) :
    AlignedGen s A rS rE (stepLoop (rE.toDays + 1) s cur rE) := by
  obtain ⟨hv, ⟨K, hK⟩, hrS, hanchor, hmin⟩ := prelude_spec s hs A rS hA cur hcur
  have hApos := valid_toDays_pos A hA
  have hKtd : cur.toDays = A.toDays + s * K := by rw [hK, addDays_toDays]
  have hfuel : rE.toDays + 1 ≤ cur.toDays + s * (rE.toDays + 1) := by
    have h1 : rE.toDays + 1 ≤ s * (rE.toDays + 1) := Nat.le_mul_of_pos_left _ hs
    omega
  refine ⟨?_, stepLoop_chain s rE _ cur, ⟨cur, ⟨K, hK⟩, hrS, hmin, hanchor, ?_⟩⟩
  · intro d
    constructor
    · intro hd
      obtain ⟨⟨j, hj⟩, hle⟩ := stepLoop_subset s rE _ cur hv d hd
      have hdtd : d.toDays = A.toDays + s * K + s * j := by
        rw [hj, addDays_toDays, hKtd]
      refine ⟨⟨K + j, ?_⟩, ?_, hle⟩
      · rw [hj, hK, addDays_addDays]
        congr 1
        ring
      · rw [date_max_le_iff]
        have hrled : rS.toDays ≤ cur.toDays := hrS
        constructor
        · rw [date_le_def]
          omega
        · rw [date_le_def]
          omega
    · rintro ⟨⟨k, rfl⟩, hmax, hle⟩
      have hmax2 : rS ≤ A.addDays (s * k) := by
        rw [date_max_le_iff] at hmax
        exact hmax.2
      have hcle := hmin k hmax2
      rw [date_le_def, hKtd, addDays_toDays] at hcle
      have hKk : K ≤ k := by
        have : s * K ≤ s * k := by omega
        exact Nat.le_of_mul_le_mul_left this hs
      have hform : A.addDays (s * k) = cur.addDays (s * (k - K)) := by
        rw [hK, addDays_addDays]
        congr 1
        rw [← Nat.mul_add]
        congr 1
        omega
      rw [hform]
      rw [hform] at hle
      exact stepLoop_mem s hs rE (k - K) _ cur hv hfuel hle
  · rw [stepLoop_head]
    split <;> rename_i h1
    · rw [if_pos h1.2]
    · rw [if_neg (fun hc => h1 ⟨by omega, hc⟩)]

/-- C6: for the weekly and biweekly patterns the fast-forward-by-division
implementation is extensionally the naive iteration from the anchor: the
generated dates are exactly the dates `anchor + 7k` (resp. `anchor + 14k`)
inside `[max(anchor, rangeStart), rangeEnd]`, consecutive elements differ
by exactly the step (so the list is strictly ascending with no gaps or
duplicates), and the first emitted date is the smallest aligned candidate
`≥ rangeStart` — the anchor itself when `anchor ≥ rangeStart`. -/
theorem c6_fast_forward_refines_naive (A rS rE : Date) (hA : A.Valid) :
    AlignedGen 7 A rS rE (generate_dates A patWeekly rS rE) ∧
    AlignedGen 14 A rS rE (generate_dates A patBiweekly rS rE) := by
  constructor
  · rw [generate_dates_weekly_eq]
    exact alignedGen_of_loop 7 (by omega) A rS rE hA _ rfl
  · rw [generate_dates_biweekly_eq]
    exact alignedGen_of_loop 14 (by omega) A rS rE hA _ rfl

theorem c6_witness :
    AlignedGen 7 ⟨2024, 1, 1⟩ ⟨2024, 1, 1⟩ ⟨2024, 1, 31⟩
      (generate_dates ⟨2024, 1, 1⟩ patWeekly ⟨2024, 1, 1⟩ ⟨2024, 1, 31⟩) ∧
    AlignedGen 14 ⟨2024, 1, 1⟩ ⟨2024, 1, 1⟩ ⟨2024, 1, 31⟩
      (generate_dates ⟨2024, 1, 1⟩ patBiweekly ⟨2024, 1, 1⟩ ⟨2024, 1, 31⟩) :=
  c6_fast_forward_refines_naive ⟨2024, 1, 1⟩ ⟨2024, 1, 1⟩ ⟨2024, 1, 31⟩ (by decide)

/-! ### Monthly generation: step lemmas and claims C1, C9 -/

theorem date_le_max_left (a b : Date) : a ≤ Date.max a b := by
  unfold Date.max
  split <;> rename_i h <;> rw [date_lt_def] at h <;> rw [date_le_def] <;> omega

theorem date_max_valid (a b : Date) (ha : a.Valid) (hb : b.Valid) :
    (Date.max a b).Valid := by
  unfold Date.max
  split
  · exact hb
  · exact ha

theorem relAddMonth_valid (c : Date) (hc : c.Valid) : (relAddMonth c).Valid := by
  obtain ⟨h1, h2, h3, h4, h5⟩ := hc
  by_cases h : 12 ≤ c.month
  · simp only [relAddMonth, if_pos h]
    rw [valid_mk]
    have hp := daysInMonth_pos (c.year + 1) 1
    exact ⟨by omega, by omega, by omega, Nat.le_min.2 ⟨h4, hp⟩, Nat.min_le_right _ _⟩
  · simp only [relAddMonth, if_neg h]
    rw [valid_mk]
    have hp := daysInMonth_pos c.year (c.month + 1)
    exact ⟨by omega, by omega, by omega, Nat.le_min.2 ⟨h4, hp⟩, Nat.min_le_right _ _⟩

theorem lastDayFix_eq_of_valid (d : Date) (h1 : 1 ≤ d.month) (h2 : d.month ≤ 12) :
    lastDayFix d = ⟨d.year, d.month, daysInMonth d.year d.month⟩ :=
  lastDayFix_eq d.year d.month d.day h1 h2

theorem monthlyStep_valid (uld : Bool) (sd : Nat) (c : Date) (hc : c.Valid) :
    (monthlyStep uld sd c).Valid := by
  have hc2 := relAddMonth_valid c hc
  obtain ⟨g1, g2, g3, g4, g5⟩ := hc2
  have hld : (lastDayFix (relAddMonth c)).Valid := by
    rw [lastDayFix_eq_of_valid _ g2 g3, valid_mk]
    have hp := daysInMonth_pos (relAddMonth c).year (relAddMonth c).month
    exact ⟨g1, g2, g3, hp, Nat.le_refl _⟩
  simp only [monthlyStep]
  split
  · exact hld
  · split
    · rename_i hg
      rw [valid_mk]
      exact ⟨g1, g2, g3, hg.1, hg.2⟩
    · exact hld

theorem monthlyStep_true_eq (sd : Nat) (c : Date) (hc : c.Valid) :
    monthlyStep true sd c = ⟨(relAddMonth c).year, (relAddMonth c).month,
      daysInMonth (relAddMonth c).year (relAddMonth c).month⟩ := by
  have hc2 := relAddMonth_valid c hc
  obtain ⟨g1, g2, g3, g4, g5⟩ := hc2
  simp only [monthlyStep]
  rw [if_pos trivial]
  exact lastDayFix_eq_of_valid _ g2 g3

theorem monthlyStep_lastday (sd : Nat) (c : Date) (hc : c.Valid) :
    (monthlyStep true sd c).day =
      daysInMonth (monthlyStep true sd c).year (monthlyStep true sd c).month := by
  rw [monthlyStep_true_eq sd c hc]

theorem monthlyLoop_head (fuel : Nat) (uld : Bool) (sd : Nat) (cur rE : Date) :
    (monthlyLoop fuel uld sd cur rE).head? =
      if 1 ≤ fuel ∧ cur ≤ rE then some cur else none := by
  cases fuel with
  | zero => simp [monthlyLoop]
  | succ fuel =>
    simp only [monthlyLoop]
    split
    · rename_i h
      rw [if_pos ⟨by omega, h⟩]
      rfl
    · rename_i h
      rw [if_neg (by intro hc; exact h hc.2)]
      rfl

theorem monthlyLoop_chain (uld : Bool) (sd : Nat) (rE : Date) :
    ∀ fuel cur, List.Chain' (fun a b => b = monthlyStep uld sd a)
      (monthlyLoop fuel uld sd cur rE) := by
  intro fuel
  induction fuel with
  | zero => intro cur; simp [monthlyLoop]
  | succ fuel ih =>
    intro cur
    simp only [monthlyLoop]
    split
    · apply List.chain'_cons'.2
      refine ⟨?_, ih (monthlyStep uld sd cur)⟩
      intro b hb
      rw [monthlyLoop_head] at hb
      split at hb
      · simp only [Option.mem_def, Option.some.injEq] at hb
        exact hb.symm
      · simp at hb
    · simp

theorem monthlyLoop_all_lastday (sd : Nat) (rE : Date) :
    ∀ fuel cur, cur.Valid → cur.day = daysInMonth cur.year cur.month →
      ∀ d ∈ monthlyLoop fuel true sd cur rE,
        d.Valid ∧ d.day = daysInMonth d.year d.month := by
  intro fuel
  induction fuel with
  | zero => intro cur hv hl d hd; simp [monthlyLoop] at hd
  | succ fuel ih =>
    intro cur hv hl d hd
    simp only [monthlyLoop] at hd
    split at hd
    · rcases List.mem_cons.1 hd with heq | hd2
      · rw [heq]
        exact ⟨hv, hl⟩
      · exact ih (monthlyStep true sd cur) (monthlyStep_valid true sd cur hv)
          (monthlyStep_lastday sd cur hv) d hd2
    · simp at hd

/-- With `use_last_day` set, the monthly prelude is just
`max(start_date, range_start)`: the realignment block is skipped. -/
theorem monthlyPrelude_true (A rS : Date) :
    monthlyPrelude A rS true = Date.max A rS := by
  have hnl : ¬ Date.max A rS < A := by
    have := date_le_max_left A rS
    rw [date_le_def] at this
    rw [date_lt_def]
    omega
  have hfalse : ¬ ((Date.max A rS).day ≠ A.day ∧ true = false) := by simp
  simp only [monthlyPrelude]
  rw [if_neg hfalse, if_neg hnl]

/-- For a last-day-of-month anchor, the monthly branch of
`_generate_dates` reduces to the plain loop started at
`max(anchor, rangeStart)`: `use_last_day` is true, so the day-of-month
adjustment block is skipped entirely. -/
theorem generate_dates_monthly_lastday_eq (A rS rE : Date) (hA : A.Valid)
    (hday : A.day = daysInMonth A.year A.month) :
    generate_dates A patMonthly rS rE =
      monthlyLoop (rE.toDays + 1) true A.day (Date.max A rS) rE := by
  obtain ⟨h1, h2, h3, h4, h5⟩ := hA
  have hsm : (Date.prevDay (if A.month = 12 then (⟨A.year + 1, 1, 1⟩ : Date)
      else ⟨A.year, A.month + 1, 1⟩)).day = A.day := by
    by_cases h : A.month = 12
    · rw [if_pos h, prevDay_jan, hday, h, daysInMonth_twelve]
    · rw [if_neg h]
      obtain ⟨j, hj⟩ : ∃ j, A.month = j + 1 := ⟨A.month - 1, by omega⟩
      rw [hj, prevDay_month_first A.year (j + 1) (by omega), hday, hj]
  unfold generate_dates
  rw [if_neg (by decide), if_neg (by decide), if_pos rfl]
  simp only [hsm, beq_self_eq_true]
  rw [monthlyPrelude_true]

/-- C1 (counterexample): monthly template anchored on 2024-01-31 (the
last day of January) generated over `[2024-02-15, 2024-04-30]`: the
sequence starts with 2024-02-15 itself — a mid-month date, not the last
day of February (Feb 29 in the 2024 leap year, as the claim's
`smallest month-aligned occurrence ≥ max(anchor, rangeStart)` would
require). -/
theorem c1_counterexample :
    generate_dates ⟨2024, 1, 31⟩ patMonthly ⟨2024, 2, 15⟩ ⟨2024, 4, 30⟩ =
      [⟨2024, 2, 15⟩, ⟨2024, 3, 31⟩, ⟨2024, 4, 30⟩] ∧
    (generate_dates ⟨2024, 1, 31⟩ patMonthly ⟨2024, 2, 15⟩ ⟨2024, 4, 30⟩).head?.map
        Date.day = some 15 ∧
    daysInMonth 2024 2 = 29 := by
  refine ⟨?_, ?_, by decide⟩ <;> decide

/-- C1 (amended): for a monthly template whose anchor is the last
calendar day of its month, the first emitted date is exactly
`max(anchor, rangeStart)` — the anchor (a month-end) when
`rangeStart ≤ anchor`, but `rangeStart` itself, even mid-month, when
`rangeStart` lies strictly after the anchor — and every date emitted
after the first is the last calendar day of its respective month, each
obtained from its predecessor by the one-month-advance step. -/
theorem c1_monthly_lastday_anchor (A rS rE : Date) (hA : A.Valid) (hS : rS.Valid)
    (hday : A.day = daysInMonth A.year A.month) :
    (generate_dates A patMonthly rS rE).head? =
      (if Date.max A rS ≤ rE then some (Date.max A rS) else none) ∧
    (∀ d ∈ (generate_dates A patMonthly rS rE).tail,
      d.day = daysInMonth d.year d.month) ∧
    List.Chain' (fun a b => b = monthlyStep true A.day a)
      (generate_dates A patMonthly rS rE) := by
  rw [generate_dates_monthly_lastday_eq A rS rE hA hday]
  have hmv := date_max_valid A rS hA hS
  refine ⟨?_, ?_, monthlyLoop_chain true A.day rE _ _⟩
  · rw [monthlyLoop_head]
    split <;> rename_i h
    · rw [if_pos h.2]
    · rw [if_neg (fun hc => h ⟨by omega, hc⟩)]
  · intro d hd
    simp only [monthlyLoop] at hd
    split at hd
    · simp only [List.tail_cons] at hd
      exact (monthlyLoop_all_lastday A.day rE rE.toDays _
        (monthlyStep_valid true A.day _ hmv)
        (monthlyStep_lastday A.day _ hmv) d hd).2
    · simp at hd

theorem c1_witness :
    (generate_dates ⟨2024, 1, 31⟩ patMonthly ⟨2024, 1, 31⟩ ⟨2024, 4, 30⟩).head? =
      (if Date.max ⟨2024, 1, 31⟩ ⟨2024, 1, 31⟩ ≤ (⟨2024, 4, 30⟩ : Date) then
        some (Date.max ⟨2024, 1, 31⟩ ⟨2024, 1, 31⟩) else none) ∧
    (∀ d ∈ (generate_dates ⟨2024, 1, 31⟩ patMonthly ⟨2024, 1, 31⟩ ⟨2024, 4, 30⟩).tail,
      d.day = daysInMonth d.year d.month) ∧
    List.Chain' (fun a b => b = monthlyStep true (Date.mk 2024 1 31).day a)
      (generate_dates ⟨2024, 1, 31⟩ patMonthly ⟨2024, 1, 31⟩ ⟨2024, 4, 30⟩) :=
  c1_monthly_lastday_anchor ⟨2024, 1, 31⟩ ⟨2024, 1, 31⟩ ⟨2024, 4, 30⟩ (by decide)
    (by decide) (by decide)

theorem date_le_max_right (a b : Date) : b ≤ Date.max a b := by
  unfold Date.max
  split <;> rename_i h <;> rw [date_lt_def] at h <;> rw [date_le_def] <;> omega

theorem valid_toDays_le_month_end (d : Date) (h : d.Valid) :
    d.toDays ≤ daysBeforeYear d.year + daysBeforeMonth d.year (d.month + 1) := by
  obtain ⟨h1, h2, h3, h4, h5⟩ := h
  have hs := daysBeforeMonth_succ d.year d.month h2
  unfold Date.toDays
  omega

theorem relAddMonth_year_month (c : Date) :
    (relAddMonth c).year = (if 12 ≤ c.month then c.year + 1 else c.year) ∧
    (relAddMonth c).month = (if 12 ≤ c.month then 1 else c.month + 1) := by
  by_cases h : 12 ≤ c.month
  · simp [relAddMonth, h]
  · simp [relAddMonth, h]

theorem monthlyStep_year_month (uld : Bool) (sd : Nat) (c : Date) (hc : c.Valid) :
    (monthlyStep uld sd c).year = (relAddMonth c).year ∧
    (monthlyStep uld sd c).month = (relAddMonth c).month := by
  have hv2 := relAddMonth_valid c hc
  obtain ⟨g1, g2, g3, g4, g5⟩ := hv2
  simp only [monthlyStep]
  split
  · rw [lastDayFix_eq_of_valid _ g2 g3]
    exact ⟨rfl, rfl⟩
  · split
    · exact ⟨rfl, rfl⟩
    · rw [lastDayFix_eq_of_valid _ g2 g3]
      exact ⟨rfl, rfl⟩

/-- After one monthly advance the date lies strictly beyond the end of
the starting month. -/
theorem monthlyStep_gt_month_end (uld : Bool) (sd : Nat) (c : Date) (hc : c.Valid) :
    daysBeforeYear c.year + daysBeforeMonth c.year (c.month + 1) <
      (monthlyStep uld sd c).toDays := by
  obtain ⟨h1, h2, h3, h4, h5⟩ := hc
  have hcv : c.Valid := ⟨h1, h2, h3, h4, h5⟩
  have hval := monthlyStep_valid uld sd c hcv
  obtain ⟨hy, hm⟩ := monthlyStep_year_month uld sd c hcv
  obtain ⟨hray, hram⟩ := relAddMonth_year_month c
  obtain ⟨k1, k2, k3, k4, k5⟩ := hval
  have htd : (monthlyStep uld sd c).toDays =
      daysBeforeYear (monthlyStep uld sd c).year +
      daysBeforeMonth (monthlyStep uld sd c).year (monthlyStep uld sd c).month +
      (monthlyStep uld sd c).day := rfl
  by_cases h12 : 12 ≤ c.month
  · have hm12 : c.month = 12 := by omega
    have hys : daysBeforeYear (c.year + 1) = daysBeforeYear c.year + daysInYear c.year :=
      daysBeforeYear_succ c.year h1
    have h13 : daysBeforeMonth c.year 13 = daysInYear c.year :=
      daysBeforeMonth_thirteen c.year
    have hm1 : daysBeforeMonth (c.year + 1) 1 = 0 := daysBeforeMonth_one _
    have hcm : c.month + 1 = 13 := by omega
    rw [htd, hy, hm, hray, hram, if_pos h12, if_pos h12, hm1, hcm]
    omega
  · rw [htd, hy, hm, hray, hram, if_neg h12, if_neg h12]
    omega

/-- Wherever the monthly prelude ends up, it is never before
`range_start`. -/
theorem monthlyPrelude_ge (A rS : Date) (hA : A.Valid) (hS : rS.Valid) (uld : Bool) :
    rS.toDays ≤ (monthlyPrelude A rS uld).toDays := by
  have hc0v := date_max_valid A rS hA hS
  have hc0ge : rS.toDays ≤ (Date.max A rS).toDays := date_le_max_right A rS
  obtain ⟨m1, m2, m3, m4, m5⟩ := hc0v
  have hc0v2 : (Date.max A rS).Valid := ⟨m1, m2, m3, m4, m5⟩
  have hme := valid_toDays_le_month_end (Date.max A rS) hc0v2
  simp only [monthlyPrelude]
  have hc1 : ∀ c1 : Date, rS.toDays ≤ c1.toDays →
      rS.toDays ≤ (if c1 < A then A else c1).toDays := by
    intro c1 h
    split
    · rename_i hlt
      rw [date_lt_def] at hlt
      omega
    · exact h
  apply hc1
  split
  · by_cases htry : 1 ≤ A.day ∧
        A.day ≤ daysInMonth (Date.max A rS).year (Date.max A rS).month
    · rw [if_pos htry]
      have hcv : (Date.mk (Date.max A rS).year (Date.max A rS).month A.day).Valid :=
        valid_mk.2 ⟨m1, m2, m3, htry.1, htry.2⟩
      split
      · have hgt2 : daysBeforeYear (Date.max A rS).year +
            daysBeforeMonth (Date.max A rS).year ((Date.max A rS).month + 1) <
            (monthlyStep uld A.day
              ⟨(Date.max A rS).year, (Date.max A rS).month, A.day⟩).toDays :=
          monthlyStep_gt_month_end uld A.day
            ⟨(Date.max A rS).year, (Date.max A rS).month, A.day⟩ hcv
        omega
      · rename_i hge2
        rw [date_lt_def] at hge2
        have htdm : (Date.mk (Date.max A rS).year (Date.max A rS).month A.day).toDays =
            daysBeforeYear (Date.max A rS).year +
            daysBeforeMonth (Date.max A rS).year (Date.max A rS).month + A.day := rfl
        omega
    · rw [if_neg htry]
      have hld : lastDayFix (Date.max A rS) =
          ⟨(Date.max A rS).year, (Date.max A rS).month,
            daysInMonth (Date.max A rS).year (Date.max A rS).month⟩ :=
        lastDayFix_eq_of_valid _ m2 m3
      rw [hld]
      have hcv : (Date.mk (Date.max A rS).year (Date.max A rS).month
          (daysInMonth (Date.max A rS).year (Date.max A rS).month)).Valid :=
        valid_mk.2 ⟨m1, m2, m3, daysInMonth_pos _ _, Nat.le_refl _⟩
      split
      · have hgt2 : daysBeforeYear (Date.max A rS).year +
            daysBeforeMonth (Date.max A rS).year ((Date.max A rS).month + 1) <
            (monthlyStep uld A.day
              ⟨(Date.max A rS).year, (Date.max A rS).month,
                daysInMonth (Date.max A rS).year (Date.max A rS).month⟩).toDays :=
          monthlyStep_gt_month_end uld A.day
            ⟨(Date.max A rS).year, (Date.max A rS).month,
              daysInMonth (Date.max A rS).year (Date.max A rS).month⟩ hcv
        omega
      · rename_i hge2
        rw [date_lt_def] at hge2
        omega
  · exact hc0ge

/-- C9 (counterexample): an unrecognized pattern value (`"daily"`) over a
wide, well-formed range is not rejected — `_generate_dates` has no
fallback branch, so it silently returns the empty sequence (its return
type carries no error at all). -/
theorem c9_counterexample :
    generate_dates ⟨2024, 1, 1⟩ "daily" ⟨2024, 1, 1⟩ ⟨2024, 12, 31⟩ = [] ∧
    generate_dates ⟨2024, 1, 1⟩ patWeekly ⟨2024, 1, 1⟩ ⟨2024, 12, 31⟩ ≠ [] := by
  constructor
  · rfl
  · decide

/-- C9 (amended): an unrecognized pattern value falls through every
branch and yields the empty sequence — no failure is raised, the invalid
pattern is silently ignored; and, as the claim's second half states, a
range with `rangeEnd < rangeStart` yields the empty sequence for every
pattern value. -/
theorem c9_invalid_pattern_and_empty_range (A rS rE : Date) (hA : A.Valid)
    (hS : rS.Valid) :
    (∀ p, p ≠ patWeekly → p ≠ patBiweekly → p ≠ patMonthly →
      generate_dates A p rS rE = []) ∧
    (rE < rS → ∀ p, generate_dates A p rS rE = []) := by
  constructor
  · intro p h1 h2 h3
    unfold generate_dates
    rw [if_neg h1, if_neg h2, if_neg h3]
  · intro hlt p
    rw [date_lt_def] at hlt
    by_cases h1 : p = patWeekly
    · subst h1
      rw [generate_dates_weekly_eq]
      obtain ⟨-, -, hge, -, -⟩ := prelude_spec 7 (by omega) A rS hA _ rfl
      rw [date_le_def] at hge
      simp only [stepLoop]
      rw [if_neg (by rw [date_le_def]; omega)]
    · by_cases h2 : p = patBiweekly
      · subst h2
        rw [generate_dates_biweekly_eq]
        obtain ⟨-, -, hge, -, -⟩ := prelude_spec 14 (by omega) A rS hA _ rfl
        rw [date_le_def] at hge
        simp only [stepLoop]
        rw [if_neg (by rw [date_le_def]; omega)]
      · by_cases h3 : p = patMonthly
        · subst h3
          unfold generate_dates
          rw [if_neg (by decide), if_neg (by decide), if_pos rfl]
          have hge := monthlyPrelude_ge A rS hA hS
            (A.day == (Date.prevDay (if A.month = 12 then ⟨A.year + 1, 1, 1⟩
              else ⟨A.year, A.month + 1, 1⟩)).day)
          simp only [monthlyLoop]
          rw [if_neg (by rw [date_le_def]; omega)]
        · unfold generate_dates
          rw [if_neg h1, if_neg h2, if_neg h3]

theorem c9_witness :
    (∀ p, p ≠ patWeekly → p ≠ patBiweekly → p ≠ patMonthly →
      generate_dates ⟨2024, 3, 10⟩ p ⟨2024, 3, 25⟩ ⟨2024, 2, 1⟩ = []) ∧
    ((⟨2024, 2, 1⟩ : Date) < ⟨2024, 3, 25⟩ →
      ∀ p, generate_dates ⟨2024, 3, 10⟩ p ⟨2024, 3, 25⟩ ⟨2024, 2, 1⟩ = []) :=
  c9_invalid_pattern_and_empty_range ⟨2024, 3, 10⟩ ⟨2024, 3, 25⟩ ⟨2024, 2, 1⟩
    (by decide) (by decide)

/-! ### Instance reconciliation: claims C3 and C8 -/

theorem mkInstance_validate (t : Transaction) (d : Date)
    (hamt : ¬ ratAbs t.amount ≤ 0) : (mkInstance t d).validate = .ok () := by
  simp [mkInstance, Transaction.new, Transaction.validate, hamt]

theorem genLoop_ok (t : Transaction) (ex : List Date) (regen : Bool)
    (hamt : ¬ ratAbs t.amount ≤ 0) :
    ∀ ds, genLoop t ex regen ds =
      .ok ((ds.filter (fun d => regen || ! ex.contains d)).map (mkInstance t)) := by
  intro ds
  induction ds with
  | nil => rfl
  | cons d ds ih =>
    simp only [genLoop, List.filter_cons]
    cases hcd : ex.contains d <;> cases hr : regen <;> rw [hr] at ih <;>
      simp [mkInstance_validate t d hamt, ih, hcd]

/-- `generate_instances` on a well-formed template: the result is the
generator's candidates (restricted to dates at or after the anchor),
minus the already-materialized dates unless regenerating, each turned
into a fresh instance copying the template. -/
theorem generate_instances_spec (rows : List Transaction) (t : Transaction)
    (sd ed : Date) (regen : Bool) (p : String) (ht : t.is_template = true)
    (hp : t.recurrence_pattern = some p) (hamt : ¬ ratAbs t.amount ≤ 0) :
    generate_instances rows t sd ed regen =
      .ok ((((generate_dates t.date p sd ed).filter
          (fun d => decide (t.date ≤ d))).filter
          (fun d => regen || ! ((get_transaction_instances rows t.id).map
            (fun x => x.date)).contains d)).map (mkInstance t)) := by
  unfold generate_instances
  rw [if_neg (by simp [ht]), hp]
  exact genLoop_ok t _ regen hamt _

/-- C8: every instance returned by `generate_instances` copies `amount`,
`type`, `description`, `category` and `payee` from the template, links
back via `recurring_template_id = template.id`, has `is_template = false`,
a null `recurrence_pattern` and a null (not yet persisted) `id`; and the
returned dates are exactly the surviving candidate dates in the Date
Generator's emission order.  The operation reads the store (via
`get_transaction_instances`) and performs no write: in this embedding it
is a pure function of the rows. -/
theorem c8_output_contract (rows : List Transaction) (t : Transaction) (sd ed : Date)
    (regen : Bool) (p : String) (ht : t.is_template = true)
    (hp : t.recurrence_pattern = some p) (hamt : 0 < t.amount) :
    ∀ L, generate_instances rows t sd ed regen = .ok L →
      (∀ i ∈ L, i.amount = t.amount ∧ i.type = t.type ∧
        i.description = t.description ∧ i.category = t.category ∧
        i.payee = t.payee ∧ i.recurring_template_id = t.id ∧
        i.is_template = false ∧ i.recurrence_pattern = none ∧ i.id = none) ∧
      L.map (fun i => i.date) =
        ((generate_dates t.date p sd ed).filter (fun d => decide (t.date ≤ d))).filter
          (fun d => regen || ! ((get_transaction_instances rows t.id).map
            (fun x => x.date)).contains d) := by
  have habs : ratAbs t.amount = t.amount := ratAbs_of_pos t.amount hamt
  have hA : ¬ ratAbs t.amount ≤ 0 := by rw [habs]; exact fun hc => absurd hamt (by linarith)
  intro L hL
  rw [generate_instances_spec rows t sd ed regen p ht hp hA] at hL
  have hL2 := (Except.ok.inj hL).symm
  constructor
  · intro i hi
    rw [hL2] at hi
    obtain ⟨d, -, hd2⟩ := List.mem_map.1 hi
    rw [← hd2]
    exact ⟨habs, rfl, rfl, rfl, rfl, rfl, rfl, rfl, rfl⟩
  · rw [hL2, List.map_map]
    show List.map (fun d : Date => d) _ = _
    rw [List.map_id']

theorem createAll_rows_append (ts : List Transaction) :
    ∀ s : Store, ∃ ts2 : List Transaction,
      (s.createAll ts).rows = s.rows ++ ts2 ∧
      ts2.map (fun r => (r.date, r.recurring_template_id)) =
        ts.map (fun r => (r.date, r.recurring_template_id)) := by
  induction ts with
  | nil => intro s; exact ⟨[], by simp [Store.createAll], rfl⟩
  | cons t ts ih =>
    intro s
    obtain ⟨ts2, h1, h2⟩ := ih (s.create t).2
    refine ⟨{t with id := some s.next_id} :: ts2, ?_, ?_⟩
    · simp only [Store.createAll]
      rw [h1]
      simp [Store.create]
    · simp [h2]

/-- C3: with `regenerate_existing = false`, generating, persisting every
returned instance, and generating again over the same arguments yields an
empty second batch; and, store-state generally, no returned instance ever
shares a calendar date with any already-persisted instance of the
template, whatever that instance's amount or description. -/
theorem c3_reconciliation_idempotent (s : Store) (t : Transaction) (sd ed : Date)
    (p : String) (tid : Nat) (ht : t.is_template = true)
    (hp : t.recurrence_pattern = some p) (hamt : 0 < t.amount)
    (hid : t.id = some tid) :
    ∀ L1, generate_instances s.rows t sd ed false = .ok L1 →
      generate_instances (s.createAll L1).rows t sd ed false = .ok [] ∧
      ∀ i ∈ L1, ∀ e ∈ get_transaction_instances s.rows t.id, i.date ≠ e.date := by
  have habs : ratAbs t.amount = t.amount := ratAbs_of_pos t.amount hamt
  have hA : ¬ ratAbs t.amount ≤ 0 := by rw [habs]; exact fun hc => absurd hamt (by linarith)
  intro L1 hL1
  rw [generate_instances_spec s.rows t sd ed false p ht hp hA] at hL1
  have hL1e := (Except.ok.inj hL1).symm
  have hdisj : ∀ i ∈ L1, ∀ e ∈ get_transaction_instances s.rows t.id, i.date ≠ e.date := by
    intro i hi e he hdate
    rw [hL1e] at hi
    obtain ⟨d, hd1, hd2⟩ := List.mem_map.1 hi
    obtain ⟨-, hkeep⟩ := List.mem_filter.1 hd1
    have hdd : i.date = d := by rw [← hd2]; rfl
    have hcont : ((get_transaction_instances s.rows t.id).map
        (fun x => x.date)).contains d = true := by
      rw [List.elem_iff]
      exact List.mem_map.2 ⟨e, he, by rw [← hdate, hdd]⟩
    rw [Bool.false_or, hcont] at hkeep
    simp at hkeep
  refine ⟨?_, hdisj⟩
  obtain ⟨ts2, hrows, hpairs⟩ := createAll_rows_append L1 s
  rw [generate_instances_spec (s.createAll L1).rows t sd ed false p ht hp hA]
  have hnil : ((generate_dates t.date p sd ed).filter
      (fun d => decide (t.date ≤ d))).filter
      (fun d => false || ! ((get_transaction_instances (s.createAll L1).rows t.id).map
        (fun x => x.date)).contains d) = [] := by
    rw [List.filter_eq_nil_iff]
    intro d hd
    have hmem : d ∈ ((get_transaction_instances (s.createAll L1).rows t.id).map
        (fun x => x.date)) := by
      rw [hrows, hid]
      simp only [get_transaction_instances, List.filter_append, List.map_append]
      by_cases hex : ((get_transaction_instances s.rows t.id).map
          (fun x => x.date)).contains d = true
      · apply List.mem_append_left
        rw [List.elem_iff] at hex
        rw [hid] at hex
        simp only [get_transaction_instances] at hex
        exact hex
      · apply List.mem_append_right
        rw [Bool.not_eq_true] at hex
        have hkept : mkInstance t d ∈ L1 := by
          rw [hL1e]
          exact List.mem_map.2 ⟨d, List.mem_filter.2 ⟨hd, by rw [Bool.false_or, hex]; rfl⟩, rfl⟩
        have hpair : ((mkInstance t d).date, (mkInstance t d).recurring_template_id) ∈
            ts2.map (fun r => (r.date, r.recurring_template_id)) := by
          rw [hpairs]
          exact List.mem_map.2 ⟨mkInstance t d, hkept, rfl⟩
        obtain ⟨r, hr1, hr2⟩ := List.mem_map.1 hpair
        have hrd : r.date = d := by
          have := congrArg Prod.fst hr2
          simpa using this
        have hrt : r.recurring_template_id = t.id := by
          have := congrArg Prod.snd hr2
          simpa using this
        refine List.mem_map.2 ⟨r, ?_, hrd⟩
        apply List.mem_filter.2
        refine ⟨hr1, ?_⟩
        rw [hrt, hid]
        simp
    have hcont2 : ((get_transaction_instances (s.createAll L1).rows t.id).map
        (fun x => x.date)).contains d = true := by
      rw [List.elem_iff]
      exact hmem
    simp only [Bool.false_or]
    rw [hcont2]
    decide
  rw [hnil]
  rfl

set_option maxRecDepth 8000 in
theorem c8_witness :
    (∀ i ∈ sampleInstances, i.amount = sampleTemplate.amount ∧
      i.type = sampleTemplate.type ∧ i.description = sampleTemplate.description ∧
      i.category = sampleTemplate.category ∧ i.payee = sampleTemplate.payee ∧
      i.recurring_template_id = sampleTemplate.id ∧ i.is_template = false ∧
      i.recurrence_pattern = none ∧ i.id = none) ∧
    sampleInstances.map (fun i => i.date) =
      ((generate_dates sampleTemplate.date patMonthly ⟨2024, 1, 15⟩ ⟨2024, 6, 15⟩).filter
        (fun d => decide (sampleTemplate.date ≤ d))).filter
        (fun d => false || ! ((get_transaction_instances ([] : List Transaction)
          sampleTemplate.id).map (fun x => x.date)).contains d) :=
  c8_output_contract [] sampleTemplate ⟨2024, 1, 15⟩ ⟨2024, 6, 15⟩ false patMonthly
    rfl rfl (by decide) sampleInstances (by rfl)

set_option maxRecDepth 8000 in
theorem c3_witness :
    generate_instances ((Store.mk [] 1).createAll sampleInstances).rows sampleTemplate
      ⟨2024, 1, 15⟩ ⟨2024, 6, 15⟩ false = .ok [] ∧
    ∀ i ∈ sampleInstances,
      ∀ e ∈ get_transaction_instances (Store.mk [] 1).rows sampleTemplate.id,
        i.date ≠ e.date :=
  c3_reconciliation_idempotent (Store.mk [] 1) sampleTemplate ⟨2024, 1, 15⟩
    ⟨2024, 6, 15⟩ patMonthly 1 rfl rfl (by decide) rfl sampleInstances (by rfl)

/-! ### Balance ledger: claims C4 and C5 -/

theorem balance_foldl (l : List Transaction) (b0 : Rat) :
    l.foldl (fun balance t =>
      if t.type = TransactionType.deposit then balance + t.amount
      else balance - t.amount) b0 = b0 + (l.map Transaction.get_signed_amount).sum := by
  induction l generalizing b0 with
  | nil => simp
  | cons t l ih =>
    simp only [List.foldl_cons, List.map_cons, List.sum_cons]
    rw [ih]
    unfold Transaction.get_signed_amount
    split <;> ring

theorem balance_up_to_eq (rows : List Transaction) (target : Date) :
    calculate_balance_up_to_date rows target =
      ((rows.filter (fun t => decide (t.date ≤ target) && !t.is_template)).map
        Transaction.get_signed_amount).sum := by
  unfold calculate_balance_up_to_date
  rw [balance_foldl]
  ring

theorem sum_filter_split (l : List Transaction) (p q : Transaction → Bool) :
    ((l.filter p).map Transaction.get_signed_amount).sum =
      ((l.filter (fun x => p x && q x)).map Transaction.get_signed_amount).sum +
      ((l.filter (fun x => p x && !q x)).map Transaction.get_signed_amount).sum := by
  induction l with
  | nil => simp
  | cons t l ih =>
    simp only [List.filter_cons]
    cases hp : p t <;> cases hq : q t <;> simp [hp, hq, ih] <;> ring

theorem range_sum_empty (rows : List Transaction) (a b : Date)
    (h : b.toDays < a.toDays) :
    ((get_transactions_by_date_range rows a b).map Transaction.get_signed_amount).sum
      = 0 := by
  unfold get_transactions_by_date_range
  rw [List.filter_eq_nil_iff.2 ?_]
  · rfl
  · intro t ht hc
    simp only [Bool.and_eq_true, decide_eq_true_eq] at hc
    obtain ⟨⟨h1, h2⟩, -⟩ := hc
    rw [date_le_def] at h1 h2
    omega

theorem range_sum_congr_end (rows : List Transaction) (a b b2 : Date)
    (h : b.toDays = b2.toDays) :
    ((get_transactions_by_date_range rows a b).map Transaction.get_signed_amount).sum =
    ((get_transactions_by_date_range rows a b2).map Transaction.get_signed_amount).sum := by
  unfold get_transactions_by_date_range
  congr 1
  apply congrArg
  apply List.filter_congr
  intro t ht
  have : decide (t.date ≤ b) = decide (t.date ≤ b2) := by
    by_cases h1 : t.date ≤ b
    · have h1td := h1
      rw [date_le_def] at h1td
      have h2 : t.date ≤ b2 := by rw [date_le_def]; omega
      simp [h1, h2]
    · have h1td := h1
      rw [date_le_def] at h1td
      have h2 : ¬ t.date ≤ b2 := by rw [date_le_def]; omega
      simp [h1, h2]
  rw [this]

theorem range_sum_split (rows : List Transaction) (a b c : Date)
    (hab : a.toDays ≤ b.toDays + 1) (hbc : b.toDays ≤ c.toDays) :
    ((get_transactions_by_date_range rows a c).map Transaction.get_signed_amount).sum =
      ((get_transactions_by_date_range rows a b).map Transaction.get_signed_amount).sum +
      ((get_transactions_by_date_range rows (b.addDays 1) c).map
        Transaction.get_signed_amount).sum := by
  unfold get_transactions_by_date_range
  rw [sum_filter_split rows
    (fun t => decide (a ≤ t.date) && decide (t.date ≤ c) && !t.is_template)
    (fun t => decide (t.date ≤ b))]
  have htd1 : (b.addDays 1).toDays = b.toDays + 1 := addDays_toDays b 1
  congr 1
  · apply congrArg
    apply congrArg
    apply List.filter_congr
    intro t ht
    by_cases h2 : t.date ≤ b
    · have h2td := h2
      rw [date_le_def] at h2td
      have h3 : t.date ≤ c := by rw [date_le_def]; omega
      simp [h2, h3]
    · simp [h2]
  · apply congrArg
    apply congrArg
    apply List.filter_congr
    intro t ht
    by_cases h2 : t.date ≤ b
    · have h2td := h2
      rw [date_le_def] at h2td
      have h4 : ¬ b.addDays 1 ≤ t.date := by rw [date_le_def]; omega
      simp [h2, h4]
    · have h2td := h2
      rw [date_le_def] at h2td
      have h4 : b.addDays 1 ≤ t.date := by rw [date_le_def]; omega
      have h1 : a ≤ t.date := by rw [date_le_def]; omega
      simp [h2, h4, h1]

theorem weekEndOf_ge (cur me : Date) (h : cur.toDays ≤ me.toDays) :
    cur.toDays ≤ (weekEndOf cur me).toDays := by
  unfold weekEndOf
  apply date_min_toDays_ge
  · split
    · exact Nat.le_refl _
    · rw [addDays_toDays]
      omega
  · exact h

theorem weekEndOf_le (cur me : Date) : (weekEndOf cur me).toDays ≤ me.toDays :=
  date_min_toDays_le_right _ _

theorem weekLoop_nil (rows : List Transaction) (me : Date) (fuel : Nat) (bal : Rat)
    (cur : Date) (h : ¬ (1 ≤ fuel ∧ cur ≤ me)) : weekLoop rows me fuel bal cur = [] := by
  cases fuel with
  | zero => rfl
  | succ fuel =>
    simp only [weekLoop]
    rw [if_neg (fun hc => h ⟨by omega, hc⟩)]

theorem weekLoop_head_eq (rows : List Transaction) (me : Date) (fuel : Nat) (bal : Rat)
    (cur : Date) :
    (weekLoop rows me fuel bal cur).head? =
      if 1 ≤ fuel ∧ cur ≤ me then
        some ⟨cur, weekEndOf cur me, bal, bal + weekNet rows cur (weekEndOf cur me),
          weekNet rows cur (weekEndOf cur me)⟩
      else none := by
  cases fuel with
  | zero => simp [weekLoop]
  | succ fuel =>
    simp only [weekLoop]
    split
    · rename_i hg
      rw [if_pos (show 1 ≤ fuel + 1 ∧ cur ≤ me from ⟨by omega, hg⟩)]
      split <;> rfl
    · rename_i hg
      rw [if_neg (show ¬ (1 ≤ fuel + 1 ∧ cur ≤ me) from fun hc => hg hc.2)]
      rfl

theorem weekLoop_last_ending (rows : List Transaction) (me : Date) :
    ∀ fuel bal cur w, (weekLoop rows me fuel bal cur).getLast? = some w →
      w.ending_balance =
        bal + ((weekLoop rows me fuel bal cur).map (fun x => x.net_change)).sum := by
  intro fuel
  induction fuel with
  | zero => intro bal cur w hw; simp [weekLoop] at hw
  | succ fuel ih =>
    intro bal cur w hw
    simp only [weekLoop] at hw ⊢
    split at hw
    · rename_i hg
      rw [if_pos hg]
      split at hw
      · rename_i hlt
        rw [if_pos hlt]
        generalize hrest : weekLoop rows me fuel
            (bal + weekNet rows cur (weekEndOf cur me)) ((weekEndOf cur me).addDays 1)
          = L2 at hw ⊢
        cases L2 with
        | nil =>
          simp only [List.getLast?_singleton, Option.some.injEq] at hw
          rw [← hw]
          simp
        | cons r rs =>
          rw [List.getLast?_cons_cons] at hw
          have hih := ih (bal + weekNet rows cur (weekEndOf cur me))
            ((weekEndOf cur me).addDays 1) w (by rw [hrest]; exact hw)
          rw [hrest] at hih
          simp only [List.map_cons, List.sum_cons]
          rw [hih]
          simp only [List.map_cons, List.sum_cons]
          ring
      · rename_i hlt
        rw [if_neg hlt]
        simp only [List.getLast?_singleton, Option.some.injEq] at hw
        rw [← hw]
        simp
    · simp at hw

theorem weekLoop_balanced (rows : List Transaction) (me : Date) (fuel : Nat) (bal : Rat)
    (cur : Date) :
    ((weekLoop rows me fuel bal cur).getLast?).map (fun w => w.ending_balance) =
      ((weekLoop rows me fuel bal cur).head?).map
        (fun w => w.starting_balance +
          ((weekLoop rows me fuel bal cur).map (fun w2 => w2.net_change)).sum) := by
  by_cases hc : 1 ≤ fuel ∧ cur ≤ me
  · have hh := weekLoop_head_eq rows me fuel bal cur
    rw [if_pos hc] at hh
    have hne : weekLoop rows me fuel bal cur ≠ [] := by
      intro h0
      rw [h0] at hh
      exact Option.noConfusion hh
    obtain ⟨w, hw⟩ := Option.isSome_iff_exists.1 (List.getLast?_isSome.2 hne)
    rw [hw, hh]
    simp only [Option.map_some']
    rw [weekLoop_last_ending rows me fuel bal cur w hw]
  · rw [weekLoop_nil rows me fuel bal cur hc]
    rfl

theorem weekLoop_sum (rows : List Transaction) (me : Date) :
    ∀ fuel bal cur, me.toDays + 1 ≤ cur.toDays + fuel →
      ((weekLoop rows me fuel bal cur).map (fun w => w.net_change)).sum =
        ((get_transactions_by_date_range rows cur me).map
          Transaction.get_signed_amount).sum := by
  intro fuel
  induction fuel with
  | zero =>
    intro bal cur hfuel
    rw [weekLoop_nil rows me 0 bal cur (by omega)]
    rw [range_sum_empty rows cur me (by omega)]
    rfl
  | succ fuel ih =>
    intro bal cur hfuel
    simp only [weekLoop]
    split
    · rename_i hg
      have hgtd : cur.toDays ≤ me.toDays := hg
      have hge := weekEndOf_ge cur me hgtd
      have hle := weekEndOf_le cur me
      split
      · rename_i hlt
        simp only [List.map_cons, List.sum_cons]
        rw [ih (bal + weekNet rows cur (weekEndOf cur me)) ((weekEndOf cur me).addDays 1)
          (by rw [addDays_toDays]; omega)]
        rw [range_sum_split rows cur (weekEndOf cur me) me (by omega) hle]
        rfl
      · rename_i hlt
        rw [date_lt_def] at hlt
        simp only [List.map_cons, List.sum_cons, List.map_nil, List.sum_nil]
        rw [weekNet, range_sum_congr_end rows cur (weekEndOf cur me) me (by omega)]
        ring
    · rename_i hg
      rw [date_le_def] at hg
      rw [range_sum_empty rows cur me (by omega)]
      rfl

/-- C4: in every weekly-balance report the ending balance of the last
emitted week equals the starting balance of the first week plus the sum
of all weeks' net changes, exactly, in the exact-rational model of the
amounts (stated on `Option` so that an empty report satisfies it
trivially). -/
theorem c4_weekly_balance_invariant (rows : List Transaction) (y m : Nat) :
    ((calculate_weekly_balances rows y m).getLast?).map (fun w => w.ending_balance) =
      ((calculate_weekly_balances rows y m).head?).map
        (fun w => w.starting_balance +
          ((calculate_weekly_balances rows y m).map (fun w2 => w2.net_change)).sum) := by
  simp only [calculate_weekly_balances]
  exact weekLoop_balanced rows _ _ _ _

theorem month_len_eq (y m : Nat) (hy : 1 ≤ y) (hm1 : 1 ≤ m) (hm2 : m ≤ 12) :
    (Date.toDays (if m = 12 then ⟨y + 1, 1, 1⟩ else ⟨y, m + 1, 1⟩)) -
      (Date.toDays ⟨y, m, 1⟩) = daysInMonth y m := by
  have hme := toDays_month_end y m hy hm1 hm2
  have h1 : (Date.mk y m (daysInMonth y m)).toDays =
      daysBeforeYear y + daysBeforeMonth y m + daysInMonth y m := rfl
  have h2 : (Date.mk y m 1).toDays = daysBeforeYear y + daysBeforeMonth y m + 1 := rfl
  omega

theorem prevDay_month_start (y m : Nat) (hm : 1 ≤ m) :
    Date.prevDay ⟨y, m, 1⟩ = lastDayOfPrevMonth y m := by
  by_cases h1 : m = 1
  · subst h1
    simp [Date.prevDay, lastDayOfPrevMonth]
  · have h2 : 1 < m := by omega
    simp [Date.prevDay, lastDayOfPrevMonth, h1, h2]

theorem lastDayOfPrevMonth_next (y m : Nat) (hm1 : 1 ≤ m) (hm2 : m ≤ 12) :
    lastDayOfPrevMonth (if m = 12 then y + 1 else y) (if m = 12 then 1 else m + 1) =
      ⟨y, m, daysInMonth y m⟩ := by
  by_cases h : m = 12
  · subst h
    rw [if_pos rfl, if_pos rfl]
    simp [lastDayOfPrevMonth, daysInMonth_twelve]
  · rw [if_neg h, if_neg h]
    have hne : ¬ (m + 1 = 1) := by omega
    simp [lastDayOfPrevMonth, hne]

theorem cwb_head_starting (rows : List Transaction) (y m : Nat) (hy : 1 ≤ y)
    (hm1 : 1 ≤ m) (hm2 : m ≤ 12) :
    ((calculate_weekly_balances rows y m).head?).map (fun w => w.starting_balance) =
      some (calculate_balance_up_to_date rows (lastDayOfPrevMonth y m)) := by
  have hdimp := daysInMonth_pos y m
  simp only [calculate_weekly_balances]
  rw [month_len_eq y m hy hm1 hm2]
  rw [weekLoop_head_eq]
  rw [if_pos ⟨by omega, by
    rw [date_le_def]
    show daysBeforeYear y + daysBeforeMonth y m + 1 ≤
      daysBeforeYear y + daysBeforeMonth y m + daysInMonth y m
    omega⟩]
  simp only [Option.map_some']
  rw [prevDay_month_start y m hm1]

theorem balance_split_month (rows : List Transaction) (y m : Nat) (hy : 1 ≤ y)
    (hm1 : 1 ≤ m) (hm2 : m ≤ 12) (hne : 2 ≤ y ∨ 2 ≤ m) :
    calculate_balance_up_to_date rows ⟨y, m, daysInMonth y m⟩ =
      calculate_balance_up_to_date rows (lastDayOfPrevMonth y m) +
      ((get_transactions_by_date_range rows ⟨y, m, 1⟩ ⟨y, m, daysInMonth y m⟩).map
        Transaction.get_signed_amount).sum := by
  have hdimp := daysInMonth_pos y m
  have hms_valid : (Date.mk y m 1).Valid := valid_mk.2 ⟨hy, hm1, hm2, Nat.le_refl 1, hdimp⟩
  have hpe : (Date.prevDay ⟨y, m, 1⟩).toDays = (Date.mk y m 1).toDays - 1 :=
    prevDay_toDays _ hms_valid
      (by rcases hne with h | h
          · exact Or.inl h
          · exact Or.inr (Or.inl h))
  have hms1 : (Date.mk y m 1).toDays = daysBeforeYear y + daysBeforeMonth y m + 1 := rfl
  have hmsd : (Date.mk y m (daysInMonth y m)).toDays =
      daysBeforeYear y + daysBeforeMonth y m + daysInMonth y m := rfl
  rw [← prevDay_month_start y m hm1]
  rw [balance_up_to_eq, balance_up_to_eq]
  unfold get_transactions_by_date_range
  rw [sum_filter_split rows
    (fun t => decide (t.date ≤ (⟨y, m, daysInMonth y m⟩ : Date)) && !t.is_template)
    (fun t => decide (t.date ≤ Date.prevDay ⟨y, m, 1⟩))]
  congr 1
  · apply congrArg
    apply congrArg
    apply List.filter_congr
    intro t ht
    by_cases h2 : t.date ≤ Date.prevDay ⟨y, m, 1⟩
    · have h2td := h2
      rw [date_le_def] at h2td
      have h3 : t.date ≤ (⟨y, m, daysInMonth y m⟩ : Date) := by
        rw [date_le_def]
        omega
      simp [h2, h3]
    · simp [h2]
  · apply congrArg
    apply congrArg
    apply List.filter_congr
    intro t ht
    by_cases h2 : t.date ≤ Date.prevDay ⟨y, m, 1⟩
    · have h2td := h2
      rw [date_le_def] at h2td
      have h4 : ¬ ((⟨y, m, 1⟩ : Date) ≤ t.date) := by
        rw [date_le_def]
        omega
      simp [h2, h4]
    · have h2td := h2
      rw [date_le_def] at h2td
      have h1 : (⟨y, m, 1⟩ : Date) ≤ t.date := by
        rw [date_le_def]
        omega
      simp [h2, h1]

/-- C5: the first week of a month starts from the running balance as of
the last day of the previous month, and (for any month with a
representable predecessor, i.e. not January of year 1, where Python's
date arithmetic overflows) the first week's starting balance of the
following month equals the last week's ending balance of the current
month — exactly, in the exact-rational model of the amounts. -/
theorem c5_carry_over (rows : List Transaction) (y m : Nat) (hy : 1 ≤ y)
    (hm1 : 1 ≤ m) (hm2 : m ≤ 12) :
    ((calculate_weekly_balances rows y m).head?).map (fun w => w.starting_balance) =
      some (calculate_balance_up_to_date rows (lastDayOfPrevMonth y m)) ∧
    (2 ≤ y ∨ 2 ≤ m →
      ((calculate_weekly_balances rows (if m = 12 then y + 1 else y)
          (if m = 12 then 1 else m + 1)).head?).map (fun w => w.starting_balance) =
        ((calculate_weekly_balances rows y m).getLast?).map
          (fun w => w.ending_balance)) := by
  refine ⟨cwb_head_starting rows y m hy hm1 hm2, ?_⟩
  intro hne
  have hy2 : 1 ≤ (if m = 12 then y + 1 else y) := by split <;> omega
  have hm1b : 1 ≤ (if m = 12 then 1 else m + 1) := by split <;> omega
  have hm2b : (if m = 12 then 1 else m + 1) ≤ 12 := by split <;> omega
  rw [cwb_head_starting rows _ _ hy2 hm1b hm2b, lastDayOfPrevMonth_next y m hm1 hm2]
  have hdimp := daysInMonth_pos y m
  have hbal := balance_split_month rows y m hy hm1 hm2 hne
  symm
  simp only [calculate_weekly_balances]
  rw [month_len_eq y m hy hm1 hm2]
  have hcond : 1 ≤ (Date.mk y m (daysInMonth y m)).toDays + 1 ∧
      (⟨y, m, 1⟩ : Date) ≤ ⟨y, m, daysInMonth y m⟩ := by
    constructor
    · omega
    · rw [date_le_def]
      show daysBeforeYear y + daysBeforeMonth y m + 1 ≤
        daysBeforeYear y + daysBeforeMonth y m + daysInMonth y m
      omega
  have hh := weekLoop_head_eq rows ⟨y, m, daysInMonth y m⟩
    ((Date.mk y m (daysInMonth y m)).toDays + 1)
    (calculate_balance_up_to_date rows ((⟨y, m, 1⟩ : Date).prevDay)) ⟨y, m, 1⟩
  rw [if_pos hcond] at hh
  have hnenil : weekLoop rows ⟨y, m, daysInMonth y m⟩
      ((Date.mk y m (daysInMonth y m)).toDays + 1)
      (calculate_balance_up_to_date rows ((⟨y, m, 1⟩ : Date).prevDay)) ⟨y, m, 1⟩ ≠ [] := by
    intro h0
    rw [h0] at hh
    exact Option.noConfusion hh
  obtain ⟨w, hw⟩ := Option.isSome_iff_exists.1 (List.getLast?_isSome.2 hnenil)
  rw [hw]
  simp only [Option.map_some']
  rw [weekLoop_last_ending rows ⟨y, m, daysInMonth y m⟩ _ _ _ w hw]
  rw [weekLoop_sum rows ⟨y, m, daysInMonth y m⟩ _ _ _ (by omega)]
  rw [prevDay_month_start y m hm1]
  rw [← hbal]

theorem c5_witness :
    ((calculate_weekly_balances sampleInstances 2024 1).head?).map
        (fun w => w.starting_balance) =
      some (calculate_balance_up_to_date sampleInstances (lastDayOfPrevMonth 2024 1)) ∧
    (2 ≤ 2024 ∨ 2 ≤ 1 →
      ((calculate_weekly_balances sampleInstances (if 1 = 12 then 2024 + 1 else 2024)
          (if 1 = 12 then 1 else 1 + 1)).head?).map (fun w => w.starting_balance) =
        ((calculate_weekly_balances sampleInstances 2024 1).getLast?).map
          (fun w => w.ending_balance)) :=
  c5_carry_over sampleInstances 2024 1 (by omega) (by omega) (by omega)

end PaymentTracker
